import Mathlib

/-!
# Threshold secret-sharing subsystem of an RLWE multiparty library

Shallow embedding of the `Thresholdizer` / `Combiner` pair operating over
ring elements in RNS/CRT form, together with the boundary operations of the
external ring-arithmetic provider.

A ring element of one modulus chain is a list of limbs (one per modulus of
the chain), each limb a list of `n` coefficient residues.  A `QP` element
carries a base-chain (`Q`) part and an extension-chain (`P`) part.  Scalars
(`RNSScalar`) carry one residue per limb.  Montgomery form uses the radix
`R = 2 ^ 64` of the 64-bit implementation.
-/

namespace Lattigo

/-- One residue per limb of a modulus chain. -/
abbrev RNSScalar := List Nat

/-- A ring element over one modulus chain: limbs, each a list of `n`
coefficient residues. -/
abbrev PolyC := List (List Nat)

/-- A ring element over the concatenated `Q` and `P` modulus chains
(`ringqp.Poly`). -/
structure PolyQP where
  valQ : PolyC
  valP : PolyC
  deriving DecidableEq, Repr

/-- The Montgomery radix of the 64-bit implementation. -/
def R64 : Nat := 2 ^ 64

/-- Modelled from the spec (§6, ring arithmetic provider): Montgomery form of
a residue for the limb modulus `q`. -/
def mform (q a : Nat) : Nat := a * R64 % q

/-- Modelled from the spec (§6): the inverse of the Montgomery radix modulo
the (prime) limb modulus `q`, obtained by Fermat exponentiation. -/
def rInv (q : Nat) : Nat := R64 ^ (q - 2) % q

/-- Modelled from the spec (§6): Montgomery multiplication of two residues
for the limb modulus `q`; semantically `a * b * R⁻¹ mod q`. -/
def mred (q a b : Nat) : Nat := a * b * rInv q % q

/-- Modelled from the spec (§4.4, §6): inversion of a residue in the
Montgomery domain of limb modulus `q`, by Fermat exponentiation; the limb
modulus is prime. -/
def invMont (q a : Nat) : Nat := a ^ (q - 2) * R64 ^ 2 % q

/-- Modelled from the spec (§6): per-limb modular subtraction. -/
def subMod (q a b : Nat) : Nat := (a % q + (q - b % q)) % q

/-- Modelled from the spec (§6): per-limb modular addition. -/
def addMod (q a b : Nat) : Nat := (a + b) % q

/-- Modelled from the spec (§4.2): Horner evaluation of a coefficient list
`[c0, c1, ...]` at the scalar `pt`, per limb modulus `q`. -/
def hornerNat (q pt : Nat) : List Nat → Nat
  | [] => 0
  | c :: cs => (c + pt * hornerNat q pt cs) % q

/-- Modelled from the spec (§6): represent an unsigned integer identity as a
per-limb scalar over the modulus chain `M`. -/
def newRNSScalarC (M : List Nat) (v : Nat) : RNSScalar :=
  (List.range M.length).map fun i => v % M.getD i 1

/-- Modelled from the spec (§6): per-limb subtraction of two scalars over the
modulus chain `M`. -/
def subRNSScalarC (M : List Nat) (a b : RNSScalar) : RNSScalar :=
  (List.range M.length).map fun i => subMod (M.getD i 1) (a.getD i 0) (b.getD i 0)

/-- Modelled from the spec (§6): per-limb Montgomery multiplication of two
scalars over the modulus chain `M`. -/
def mulRNSScalarC (M : List Nat) (a b : RNSScalar) : RNSScalar :=
  (List.range M.length).map fun i => mred (M.getD i 1) (a.getD i 0) (b.getD i 0)

/-- Modelled from the spec (§6): per-limb Montgomery-domain inversion of a
scalar over the modulus chain `M`. -/
def inverseC (M : List Nat) (a : RNSScalar) : RNSScalar :=
  (List.range M.length).map fun i => invMont (M.getD i 1) (a.getD i 0)

/-- Modelled from the spec (§6): pointwise addition of two ring elements over
the modulus chain `M`, `n` coefficients per limb. -/
def addPolyC (M : List Nat) (n : Nat) (a b : PolyC) : PolyC :=
  (List.range M.length).map fun i => (List.range n).map fun k =>
    addMod (M.getD i 1) ((a.getD i []).getD k 0) ((b.getD i []).getD k 0)

/-- Modelled from the spec (§6): multiply a ring element by a per-limb scalar
in Montgomery form.  `off` is the offset of this chain's limbs inside the
scalar (the `P` limbs of a `QP` scalar sit after the `Q` limbs). -/
def mulRNSScalarMontgomeryC (M : List Nat) (n off : Nat) (p : PolyC) (s : RNSScalar) : PolyC :=
  (List.range M.length).map fun i => (List.range n).map fun k =>
    mred (M.getD i 1) ((p.getD i []).getD k 0) (s.getD (off + i) 0)

/-- Modelled from the spec (§4.2): evaluate a polynomial with ring-element
coefficients at the scalar `pt`, per limb of the modulus chain `M`. -/
def evalPolyScalarC (M : List Nat) (n : Nat) (coeffs : List PolyC) (pt : Nat) : PolyC :=
  (List.range M.length).map fun i => (List.range n).map fun k =>
    hornerNat (M.getD i 1) pt (coeffs.map fun c => (c.getD i []).getD k 0)

/-- Modelled from the spec (§6): a fresh all-zero ring element over the
modulus chain `M` with `n` coefficients per limb. -/
def newPolyC (M : List Nat) (n : Nat) : PolyC :=
  (List.range M.length).map fun _ => (List.range n).map fun _ => 0

/-- Modelled from the spec (§6): one uniform-sampler read over the modulus
chain `M`; `f` is the raw pseudo-random stream (counter, limb, slot) and
`off` the limb offset of this chain inside the sampler's chain. -/
def sampleC (M : List Nat) (n : Nat) (f : Nat → Nat → Nat → Nat) (ctr off : Nat) : PolyC :=
  (List.range M.length).map fun i => (List.range n).map fun k =>
    f ctr (off + i) k % M.getD i 1

/-- The number of active `Q` limbs minus one, as in the source `LevelQ`. -/
def PolyQP.levelQ (p : PolyQP) : Int := (p.valQ.length : Int) - 1

/-- The number of active `P` limbs minus one, as in the source `LevelP`. -/
def PolyQP.levelP (p : PolyQP) : Int := (p.valP.length : Int) - 1

/-- Error taxonomy of the threshold subsystem (spec §7). -/
inductive TSSError where
  | invalidThreshold
  | levelMismatch
  | insufficientParties
  | invalidEncoding
  deriving DecidableEq, Repr

/-- A party identity (`ShamirPublicPoint`), an unsigned integer. -/
abbrev ShamirPublicPoint := Nat

/-- The `Thresholdizer`: ring shape plus the pseudo-random streams backing
its two uniform samplers. -/
structure Thresholdizer where
  moduliQ : List Nat
  moduliP : List Nat
  n : Nat
  streamQ : Nat → Nat → Nat → Nat
  streamQP : Nat → Nat → Nat → Nat

/-- A Shamir polynomial with base-chain ring-element coefficients. -/
structure ShamirPolynomialQ where
  Value : List PolyC
  deriving DecidableEq, Repr

/-- A Shamir polynomial with `QP` ring-element coefficients. -/
structure ShamirPolynomialQP where
  Value : List PolyQP
  deriving DecidableEq, Repr

/-- A threshold secret share over the base chain. -/
structure ShamirSecretShareQ where
  poly : PolyC
  deriving DecidableEq, Repr

/-- A threshold secret share over the `QP` chain. -/
structure ShamirSecretShareQP where
  poly : PolyQP
  deriving DecidableEq, Repr

/-- One sampler read of the `QP` sampler: `Q` limbs then `P` limbs. -/
def Thresholdizer.sampleQP (thr : Thresholdizer) (ctr : Nat) : PolyQP :=
  ⟨sampleC thr.moduliQ thr.n thr.streamQP ctr 0,
   sampleC thr.moduliP thr.n thr.streamQP ctr thr.moduliQ.length⟩

/-- One sampler read of the `Q` sampler. -/
def Thresholdizer.sampleQ (thr : Thresholdizer) (ctr : Nat) : PolyC :=
  sampleC thr.moduliQ thr.n thr.streamQ ctr 0

/-- `Thresholdizer.GenShamirPolynomialQ`: coefficient 0 is a copy of the
secret, the remaining `threshold - 1` coefficients are fresh sampler reads.
The second component is the sampler counter after the call. -/
def Thresholdizer.GenShamirPolynomialQ (thr : Thresholdizer) (threshold : Nat) (secret : PolyC)
    (ctr : Nat) : Except TSSError ShamirPolynomialQ × Nat :=
  if threshold < 1 then (.error .invalidThreshold, ctr)
  else (.ok ⟨secret :: (List.range (threshold - 1)).map fun i => thr.sampleQ (ctr + i)⟩,
        ctr + (threshold - 1))

/-- `Thresholdizer.GenShamirPolynomialQP`: coefficient 0 is a copy of the
secret, the remaining `threshold - 1` coefficients are fresh sampler reads.
The second component is the sampler counter after the call. -/
def Thresholdizer.GenShamirPolynomialQP (thr : Thresholdizer) (threshold : Nat) (secret : PolyQP)
    (ctr : Nat) : Except TSSError ShamirPolynomialQP × Nat :=
  if threshold < 1 then (.error .invalidThreshold, ctr)
  else (.ok ⟨secret :: (List.range (threshold - 1)).map fun i => thr.sampleQP (ctr + i)⟩,
        ctr + (threshold - 1))

/-- `Thresholdizer.GenShamirSecretShareQ`: evaluate the Shamir polynomial at
the recipient identity, per limb of the base chain. -/
def Thresholdizer.GenShamirSecretShareQ (thr : Thresholdizer) (recipient : ShamirPublicPoint)
    (secretPoly : ShamirPolynomialQ) : ShamirSecretShareQ :=
  ⟨evalPolyScalarC thr.moduliQ thr.n secretPoly.Value recipient⟩

/-- `Thresholdizer.GenShamirSecretShareQP`: evaluate the Shamir polynomial at
the recipient identity, per limb of both chains. -/
def Thresholdizer.GenShamirSecretShareQP (thr : Thresholdizer) (recipient : ShamirPublicPoint)
    (secretPoly : ShamirPolynomialQP) : ShamirSecretShareQP :=
  ⟨⟨evalPolyScalarC thr.moduliQ thr.n (secretPoly.Value.map PolyQP.valQ) recipient,
    evalPolyScalarC thr.moduliP thr.n (secretPoly.Value.map PolyQP.valP) recipient⟩⟩

/-- `Thresholdizer.AllocateThresholdSecretShare`: an all-zero share at the
ring's full level. -/
def Thresholdizer.AllocateThresholdSecretShare (thr : Thresholdizer) : ShamirSecretShareQP :=
  ⟨⟨newPolyC thr.moduliQ thr.n, newPolyC thr.moduliP thr.n⟩⟩

/-- `Thresholdizer.AggregateShares`: level-check the three operands, then add
pointwise per limb of the active chain.  The returned pair is the error (if
any) and the final value of the output argument `outShare`. -/
def Thresholdizer.AggregateShares (thr : Thresholdizer) (share1 share2 outShare : ShamirSecretShareQP) :
    Option TSSError × ShamirSecretShareQP :=
  if share1.poly.levelQ ≠ share2.poly.levelQ ∨ share1.poly.levelQ ≠ outShare.poly.levelQ ∨
     share1.poly.levelP ≠ share2.poly.levelP ∨ share1.poly.levelP ≠ outShare.poly.levelP then
    (some .levelMismatch, outShare)
  else
    (none, ⟨⟨addPolyC (thr.moduliQ.take share1.poly.valQ.length) thr.n share1.poly.valQ share2.poly.valQ,
             addPolyC (thr.moduliP.take share1.poly.valP.length) thr.n share1.poly.valP share2.poly.valP⟩⟩)

/-- The `Combiner`: ring shape, threshold, the Montgomery one, and the
precomputed Lagrange coefficients keyed by identity. -/
structure Combiner where
  moduliQ : List Nat
  moduliP : List Nat
  n : Nat
  threshold : Nat
  one : RNSScalar
  lagrangeCoeffs : List (ShamirPublicPoint × RNSScalar)

/-- The concatenated modulus chain of a combiner. -/
def Combiner.moduli (cmb : Combiner) : List Nat := cmb.moduliQ ++ cmb.moduliP

/-- `Combiner.lagrangeCoeff`: per-limb subtraction, Montgomery-domain
inversion, then Montgomery multiplication, over the chain `M`. -/
def lagrangeCoeffC (M : List Nat) (thisKey thatKey : ShamirPublicPoint) : RNSScalar :=
  mulRNSScalarC M
    (inverseC M (subRNSScalarC M (newRNSScalarC M thatKey) (newRNSScalarC M thisKey)))
    (newRNSScalarC M thatKey)

/-- `NewCombiner`: precompute the Montgomery one and one Lagrange coefficient
for every identity of `others` distinct from `own`. -/
def NewCombiner (moduliQ moduliP : List Nat) (n : Nat) (own : ShamirPublicPoint)
    (others : List ShamirPublicPoint) (threshold : Nat) : Combiner :=
  let M := moduliQ ++ moduliP
  { moduliQ := moduliQ
    moduliP := moduliP
    n := n
    threshold := threshold
    one := (List.range M.length).map fun i => mform (M.getD i 1) (1 % M.getD i 1)
    lagrangeCoeffs := (others.filter fun s => s != own).map fun spk =>
      (spk, lagrangeCoeffC M own spk) }

/-- Lookup of a precomputed Lagrange coefficient (a Go map access; a missing
key yields an absent scalar). -/
def Combiner.coeffOf (cmb : Combiner) (a : ShamirPublicPoint) : Option RNSScalar :=
  (cmb.lagrangeCoeffs.find? fun pr => pr.1 == a).map Prod.snd

/-- The Lagrange-factor product of the combination loop: start from the
Montgomery one and fold over the given identities, skipping the own identity.
`none` models the out-of-range access the Go code performs when a coefficient
is missing (the map access yields a nil scalar). -/
def Combiner.coeffProd (cmb : Combiner) (M : List Nat) (pts : List ShamirPublicPoint)
    (own : ShamirPublicPoint) : Option RNSScalar :=
  pts.foldl (fun acc a =>
    if a = own then acc
    else acc.bind fun p => (cmb.coeffOf a).map fun c => mulRNSScalarC M p c)
    (some cmb.one)

/-- `Combiner.GenAdditiveShareQ`.  Result: `none` models the undefined
behavior on a missing Lagrange coefficient; otherwise the pair of the
returned error (if any) and the final value of the output argument. -/
def Combiner.GenAdditiveShareQ (cmb : Combiner) (activesPoints : List ShamirPublicPoint)
    (ownPoint : ShamirPublicPoint) (ownShare : PolyC) (skOut : PolyC) :
    Option (Option TSSError × PolyC) :=
  if activesPoints.length < cmb.threshold then some (some .insufficientParties, skOut)
  else
    match cmb.coeffProd cmb.moduliQ (activesPoints.take cmb.threshold) ownPoint with
    | none => none
    | some prod => some (none, mulRNSScalarMontgomeryC cmb.moduliQ cmb.n 0 ownShare prod)

/-- `Combiner.GenAdditiveShareQP`.  Result: `none` models the undefined
behavior on a missing Lagrange coefficient; otherwise the pair of the
returned error (if any) and the final value of the output argument. -/
def Combiner.GenAdditiveShareQP (cmb : Combiner) (activesPoints : List ShamirPublicPoint)
    (ownPoint : ShamirPublicPoint) (ownShare : PolyQP) (skOut : PolyQP) :
    Option (Option TSSError × PolyQP) :=
  if activesPoints.length < cmb.threshold then some (some .insufficientParties, skOut)
  else
    match cmb.coeffProd cmb.moduli (activesPoints.take cmb.threshold) ownPoint with
    | none => none
    | some prod =>
      some (none, ⟨mulRNSScalarMontgomeryC cmb.moduliQ cmb.n 0 ownShare.valQ prod,
                   mulRNSScalarMontgomeryC cmb.moduliP cmb.n cmb.moduliQ.length ownShare.valP prod⟩)

/-! ## Serialization

Modelled from the spec (§6): a secret share serializes as exactly the byte
encoding of its underlying ring element, with no additional header, and
deserialization rejects a length that does not match the expected element
encoding for the declared level.  Each 64-bit coefficient residue is encoded
as 8 little-endian bytes, limb after limb, `Q` limbs before `P` limbs. -/

/-- Modelled from the spec: the 8 little-endian bytes of a 64-bit word. -/
def word64Bytes (v : Nat) : List Nat :=
  (List.range 8).map fun i => v / 256 ^ i % 256

/-- Modelled from the spec: read back a 64-bit word from 8 little-endian
bytes. -/
def wordOfBytes (l : List Nat) : Nat :=
  ∑ i ∈ Finset.range 8, l.getD i 0 * 256 ^ i

/-- Modelled from the spec: encode one limb (a row of coefficients). -/
def encodeRow (r : List Nat) : List Nat := (r.map word64Bytes).flatten

/-- Modelled from the spec: encode a ring element over one chain. -/
def encodePolyC (p : PolyC) : List Nat := (p.map encodeRow).flatten

/-- Modelled from the spec: encode a `QP` ring element, `Q` part first. -/
def encodePolyQP (p : PolyQP) : List Nat := encodePolyC p.valQ ++ encodePolyC p.valP

/-- Modelled from the spec: serialized size of a ring element over one
chain. -/
def binarySizePolyC (p : PolyC) : Nat := (p.map fun r => 8 * r.length).sum

/-- Modelled from the spec: serialized size of a `QP` ring element. -/
def binarySizePolyQP (p : PolyQP) : Nat := binarySizePolyC p.valQ + binarySizePolyC p.valP

/-- Modelled from the spec: decode one limb of `n` coefficients. -/
def decodeRow : Nat → List Nat → List Nat
  | 0, _ => []
  | n + 1, bytes => wordOfBytes (bytes.take 8) :: decodeRow n (bytes.drop 8)

/-- Modelled from the spec: decode `rows` limbs of `n` coefficients each. -/
def decodeRows : Nat → Nat → List Nat → PolyC
  | 0, _, _ => []
  | r + 1, n, bytes => decodeRow n (bytes.take (8 * n)) :: decodeRows r n (bytes.drop (8 * n))

/-- Modelled from the spec: decode a `QP` ring element of the declared shape
(`rowsQ`/`rowsP` limbs of `n` coefficients), rejecting any input whose
length does not match the expected encoding size. -/
def unmarshalPolyQP (rowsQ rowsP n : Nat) (bytes : List Nat) : Except TSSError PolyQP :=
  if bytes.length = 8 * n * (rowsQ + rowsP) then
    .ok ⟨decodeRows rowsQ n bytes, decodeRows rowsP n (bytes.drop (8 * n * rowsQ))⟩
  else .error .invalidEncoding

/-- `ShamirSecretShareQP.BinarySize`: delegates to the underlying ring
element. -/
def ShamirSecretShareQP.BinarySize (s : ShamirSecretShareQP) : Nat :=
  binarySizePolyQP s.poly

/-- `ShamirSecretShareQP.WriteTo`: writes exactly the element encoding. -/
def ShamirSecretShareQP.WriteTo (s : ShamirSecretShareQP) : List Nat :=
  encodePolyQP s.poly

/-- `ShamirSecretShareQP.MarshalBinary`: the element encoding on a fresh
buffer. -/
def ShamirSecretShareQP.MarshalBinary (s : ShamirSecretShareQP) : List Nat :=
  encodePolyQP s.poly

/-- `ShamirSecretShareQP.UnmarshalBinary` into a share of the declared
shape. -/
def ShamirSecretShareQP.UnmarshalBinary (rowsQ rowsP n : Nat) (bytes : List Nat) :
    Except TSSError ShamirSecretShareQP :=
  (unmarshalPolyQP rowsQ rowsP n bytes).map fun p => ⟨p⟩

/-! ## Well-formedness of ring elements -/

/-- A ring element over one chain has one limb per modulus and `n`
coefficients per limb. -/
def wfC (M : List Nat) (n : Nat) (p : PolyC) : Prop :=
  p.length = M.length ∧ ∀ r ∈ p, r.length = n

instance (M : List Nat) (n : Nat) (p : PolyC) : Decidable (wfC M n p) := by
  unfold wfC; infer_instance

/-- Well-formedness of a `QP` ring element for a `QP` chain. -/
def wfQP (MQ MP : List Nat) (n : Nat) (p : PolyQP) : Prop :=
  wfC MQ n p.valQ ∧ wfC MP n p.valP

instance (MQ MP : List Nat) (n : Nat) (p : PolyQP) : Decidable (wfQP MQ MP n p) := by
  unfold wfQP; infer_instance

/-- Entry `k` of limb `i` of a one-chain ring element. -/
def entryC (p : PolyC) (i k : Nat) : Nat := (p.getD i []).getD k 0

/-- Entry `k` of limb `i` of a `QP` ring element, limbs of the `Q` chain
first. -/
def entryQP (p : PolyQP) (i k : Nat) : Nat := entryC (p.valQ ++ p.valP) i k

/-! ## Indexing lemmas -/

theorem getD_rangeMap {α : Type} (m : Nat) (f : Nat → α) (d : α) {i : Nat} (h : i < m) :
    ((List.range m).map f).getD i d = f i := by
  rw [List.getD_eq_getElem?_getD, List.getElem?_map, List.getElem?_range h]
  rfl

theorem entryC_rangeMap (m n : Nat) (g : Nat → Nat → Nat) {i k : Nat} (hi : i < m) (hk : k < n) :
    entryC ((List.range m).map fun i => (List.range n).map fun k => g i k) i k = g i k := by
  unfold entryC
  rw [getD_rangeMap m _ _ hi, getD_rangeMap n _ _ hk]

/-! ## Semantic (ZMod) readings of the provider operations -/

section CastLemmas

variable {q : Nat} [hq : Fact q.Prime]

theorem two_le_q : 2 ≤ q := (Fact.out : q.Prime).two_le

theorem three_le_q (hodd : q % 2 = 1) : 3 ≤ q := by
  have h2 := two_le_q (q := q)
  omega

theorem R64_cast_ne_zero (hodd : q % 2 = 1) : ((R64 : Nat) : ZMod q) ≠ 0 := by
  intro hdvd
  rw [ZMod.natCast_zmod_eq_zero_iff_dvd] at hdvd
  have h2 : q ∣ 2 ^ 64 := hdvd
  have hp : q.Prime := Fact.out
  have := (Nat.Prime.dvd_of_dvd_pow (n := 64) hp h2)
  have : q = 2 := (Nat.prime_dvd_prime_iff_eq hp Nat.prime_two).mp this
  omega

theorem pow_sub_two_eq_inv {a : ZMod q} (ha : a ≠ 0) : a ^ (q - 2) = a⁻¹ := by
  have h1 : a * a ^ (q - 2) = 1 := by
    have hstep : a * a ^ (q - 2) = a ^ (q - 1) := by
      rw [← pow_succ']
      congr 1
      have := two_le_q (q := q)
      omega
    rw [hstep]
    exact ZMod.pow_card_sub_one_eq_one ha
  exact (inv_eq_of_mul_eq_one_right h1).symm

theorem cast_rInv (hodd : q % 2 = 1) : ((rInv q : Nat) : ZMod q) = ((R64 : Nat) : ZMod q)⁻¹ := by
  unfold rInv
  rw [ZMod.natCast_mod, Nat.cast_pow]
  exact pow_sub_two_eq_inv (R64_cast_ne_zero hodd)

theorem cast_mred (hodd : q % 2 = 1) (a b : Nat) :
    ((mred q a b : Nat) : ZMod q) = (a : ZMod q) * b * ((R64 : Nat) : ZMod q)⁻¹ := by
  unfold mred
  rw [ZMod.natCast_mod, Nat.cast_mul, Nat.cast_mul, cast_rInv hodd]

theorem cast_mform (a : Nat) : ((mform q a : Nat) : ZMod q) = (a : ZMod q) * ((R64 : Nat) : ZMod q) := by
  unfold mform
  rw [ZMod.natCast_mod, Nat.cast_mul]

theorem cast_subMod (a b : Nat) : ((subMod q a b : Nat) : ZMod q) = (a : ZMod q) - b := by
  unfold subMod
  have hqpos : 0 < q := lt_of_lt_of_le (by norm_num) (two_le_q (q := q))
  have hble : b % q ≤ q := le_of_lt (Nat.mod_lt _ hqpos)
  rw [ZMod.natCast_mod, Nat.cast_add, Nat.cast_sub hble, ZMod.natCast_self, ZMod.natCast_mod,
    ZMod.natCast_mod]
  ring

theorem cast_addMod (a b : Nat) : ((addMod q a b : Nat) : ZMod q) = (a : ZMod q) + b := by
  unfold addMod
  rw [ZMod.natCast_mod, Nat.cast_add]

theorem cast_invMont (hodd : q % 2 = 1) (a : Nat) :
    ((invMont q a : Nat) : ZMod q) = ((a : ZMod q))⁻¹ * ((R64 : Nat) : ZMod q) ^ 2 := by
  unfold invMont
  rw [ZMod.natCast_mod, Nat.cast_mul, Nat.cast_pow, Nat.cast_pow]
  congr 1
  by_cases ha : (a : ZMod q) = 0
  · rw [ha, inv_zero, zero_pow]
    have := three_le_q (q := q) hodd
    omega
  · exact pow_sub_two_eq_inv ha

theorem cast_hornerNat (pt : Nat) : ∀ cs : List Nat,
    ((hornerNat q pt cs : Nat) : ZMod q) =
      ∑ m ∈ Finset.range cs.length, (cs.getD m 0 : ZMod q) * (pt : ZMod q) ^ m
  | [] => by simp [hornerNat]
  | c :: cs => by
    unfold hornerNat
    rw [ZMod.natCast_mod, Nat.cast_add, Nat.cast_mul, cast_hornerNat pt cs]
    simp only [List.length_cons]
    rw [Finset.sum_range_succ']
    simp only [List.getD_cons_succ, List.getD_cons_zero, pow_zero, mul_one, pow_succ]
    rw [Finset.mul_sum, add_comm]
    congr 1
    refine Finset.sum_congr rfl fun x _ => ?_
    ring

end CastLemmas

/-! ## Semantics of the precomputed Lagrange coefficients -/

theorem lagrangeCoeffC_entry (M : List Nat) (own that : Nat) {i : Nat} (hi : i < M.length)
    [Fact (Nat.Prime (M.getD i 1))] (hodd : M.getD i 1 % 2 = 1) :
    (((lagrangeCoeffC M own that).getD i 0 : Nat) : ZMod (M.getD i 1)) =
      (that : ZMod (M.getD i 1)) * ((that : ZMod (M.getD i 1)) - (own : Nat))⁻¹ *
        ((R64 : Nat) : ZMod (M.getD i 1)) := by
  simp only [lagrangeCoeffC, mulRNSScalarC, inverseC, subRNSScalarC, newRNSScalarC]
  rw [getD_rangeMap _ _ _ hi, getD_rangeMap _ _ _ hi, getD_rangeMap _ _ _ hi,
    getD_rangeMap _ _ _ hi, getD_rangeMap _ _ _ hi]
  rw [cast_mred hodd, cast_invMont hodd, cast_subMod, ZMod.natCast_mod, ZMod.natCast_mod]
  have hR := R64_cast_ne_zero (q := M.getD i 1) hodd
  have key : ∀ x y z : ZMod (M.getD i 1), z ≠ 0 → y * z ^ 2 * x * z⁻¹ = x * y * z := by
    intro x y z hz
    have h1 : z ^ 2 * z⁻¹ = z := by rw [sq, mul_assoc, mul_inv_cancel₀ hz, mul_one]
    calc y * z ^ 2 * x * z⁻¹ = x * y * (z ^ 2 * z⁻¹) := by ring
      _ = x * y * z := by rw [h1]
  exact key _ _ _ hR

theorem combiner_one_entry (MQ MP : List Nat) (n : Nat) (own : ShamirPublicPoint)
    (others : List ShamirPublicPoint) (t : Nat) {i : Nat} (hi : i < (MQ ++ MP).length) :
    (NewCombiner MQ MP n own others t).one.getD i 0 =
      mform ((MQ ++ MP).getD i 1) (1 % (MQ ++ MP).getD i 1) := by
  simp only [NewCombiner]
  exact getD_rangeMap _ _ _ hi

theorem combiner_one_entry_cast (MQ MP : List Nat) (n : Nat) (own : ShamirPublicPoint)
    (others : List ShamirPublicPoint) (t : Nat) {i : Nat} (hi : i < (MQ ++ MP).length)
    [Fact (Nat.Prime ((MQ ++ MP).getD i 1))] :
    (((NewCombiner MQ MP n own others t).one.getD i 0 : Nat) : ZMod ((MQ ++ MP).getD i 1)) =
      ((R64 : Nat) : ZMod ((MQ ++ MP).getD i 1)) := by
  rw [combiner_one_entry MQ MP n own others t hi, cast_mform, ZMod.natCast_mod, Nat.cast_one,
    one_mul]

theorem find?_map_pair {α β : Type} [DecidableEq α] (g : α → β) (a : α) : ∀ l : List α,
    ((l.map fun s => (s, g s)).find? fun pr => pr.1 == a) =
      if a ∈ l then some (a, g a) else none
  | [] => by simp
  | s :: l => by
    by_cases hsa : s = a
    · subst hsa
      simp [List.find?_cons_of_pos]
    · rw [List.map_cons, List.find?_cons_of_neg, find?_map_pair g a l]
      · simp only [List.mem_cons]
        have : (a = s ∨ a ∈ l) ↔ a ∈ l := by
          constructor
          · rintro (h | h)
            · exact absurd h.symm hsa
            · exact h
          · exact Or.inr
        rw [if_congr this rfl rfl]
      · simp [hsa]

theorem coeffOf_NewCombiner (MQ MP : List Nat) (n : Nat) (own : ShamirPublicPoint)
    (others : List ShamirPublicPoint) (t : Nat) (a : ShamirPublicPoint) :
    (NewCombiner MQ MP n own others t).coeffOf a =
      if a ∈ others ∧ a ≠ own then some (lagrangeCoeffC (MQ ++ MP) own a) else none := by
  have hmem : (a ∈ others.filter fun s => s != own) ↔ (a ∈ others ∧ a ≠ own) := by
    simp [List.mem_filter]
  simp only [Combiner.coeffOf, NewCombiner]
  rw [find?_map_pair]
  by_cases h : a ∈ others ∧ a ≠ own
  · rw [if_pos (hmem.mpr h), if_pos h, Option.map_some']
  · rw [if_neg (fun hc => h (hmem.mp hc)), if_neg h, Option.map_none']

theorem lagrangeCoeffC_entry' (M : List Nat) (own that : Nat) {i q : Nat} (hi : i < M.length)
    (hq : M.getD i 1 = q) [Fact (Nat.Prime q)] (hodd : q % 2 = 1) :
    (((lagrangeCoeffC M own that).getD i 0 : Nat) : ZMod q) =
      (that : ZMod q) * ((that : ZMod q) - (own : Nat))⁻¹ * ((R64 : Nat) : ZMod q) := by
  subst hq
  exact lagrangeCoeffC_entry M own that hi hodd

theorem combiner_one_entry_cast' (MQ MP : List Nat) (n : Nat) (own : ShamirPublicPoint)
    (others : List ShamirPublicPoint) (t : Nat) {i q : Nat} (hi : i < (MQ ++ MP).length)
    (hq : (MQ ++ MP).getD i 1 = q) [Fact (Nat.Prime q)] :
    (((NewCombiner MQ MP n own others t).one.getD i 0 : Nat) : ZMod q) =
      ((R64 : Nat) : ZMod q) := by
  subst hq
  exact combiner_one_entry_cast MQ MP n own others t hi

/-! ## Semantics of the combination loop -/

theorem coeffProd_fold_sem (MQ MP : List Nat) (nn : Nat) (own : ShamirPublicPoint)
    (others : List ShamirPublicPoint) (t : Nat) (M : List Nat)
    (hMsub : ∀ i, i < M.length → M.getD i 1 = (MQ ++ MP).getD i 1)
    (hMlen : M.length ≤ (MQ ++ MP).length)
    (pts : List ShamirPublicPoint) (hpts : ∀ a ∈ pts, a ≠ own → a ∈ others) :
    ∀ acc : RNSScalar,
      ∃ r, (pts.foldl (fun acc a => if a = own then acc
              else acc.bind fun p => ((NewCombiner MQ MP nn own others t).coeffOf a).map
                fun c => mulRNSScalarC M p c) (some acc) = some r) ∧
        ∀ i, ∀ _ : i < M.length, ∀ _ : Fact (Nat.Prime (M.getD i 1)), M.getD i 1 % 2 = 1 →
          ((r.getD i 0 : Nat) : ZMod (M.getD i 1)) =
            (acc.getD i 0 : ZMod (M.getD i 1)) *
              ((pts.filter fun b => b != own).map fun (b : Nat) =>
                (b : ZMod (M.getD i 1)) * ((b : ZMod (M.getD i 1)) - (own : Nat))⁻¹).prod := by
  induction pts with
  | nil => exact fun acc => ⟨acc, rfl, by intro i hi _ _; simp⟩
  | cons a pts ih =>
    intro acc
    by_cases hao : a = own
    · have hfilter : ((a :: pts).filter fun b => b != own) = pts.filter fun b => b != own := by
        simp [List.filter_cons, hao]
      obtain ⟨r, hr, hsem⟩ := ih (fun b hb hbo => hpts b (List.mem_cons_of_mem a hb) hbo) acc
      refine ⟨r, ?_, ?_⟩
      · rw [List.foldl_cons, if_pos hao]
        exact hr
      · intro i hi hF hodd
        rw [hfilter]
        exact hsem i hi hF hodd
    · have hmem : a ∈ others := hpts a (List.mem_cons_self a pts) hao
      have hco : (NewCombiner MQ MP nn own others t).coeffOf a =
          some (lagrangeCoeffC (MQ ++ MP) own a) := by
        rw [coeffOf_NewCombiner]
        exact if_pos ⟨hmem, hao⟩
      obtain ⟨r, hr, hsem⟩ := ih (fun b hb hbo => hpts b (List.mem_cons_of_mem a hb) hbo)
        (mulRNSScalarC M acc (lagrangeCoeffC (MQ ++ MP) own a))
      refine ⟨r, ?_, ?_⟩
      · rw [List.foldl_cons, if_neg hao]
        simpa [hco] using hr
      · intro i hi hF hodd
        have hall : i < (MQ ++ MP).length := lt_of_lt_of_le hi hMlen
        rw [hsem i hi hF hodd]
        have hacc : (mulRNSScalarC M acc (lagrangeCoeffC (MQ ++ MP) own a)).getD i 0 =
            mred (M.getD i 1) (acc.getD i 0) ((lagrangeCoeffC (MQ ++ MP) own a).getD i 0) := by
          simp only [mulRNSScalarC]
          exact getD_rangeMap _ _ _ hi
        rw [hacc, cast_mred hodd,
          lagrangeCoeffC_entry' (MQ ++ MP) own a hall (hMsub i hi).symm hodd]
        have hfilter : ((a :: pts).filter fun b => b != own) =
            a :: pts.filter fun b => b != own := by
          simp [List.filter_cons, hao]
        rw [hfilter, List.map_cons, List.prod_cons]
        have hR := R64_cast_ne_zero (q := M.getD i 1) hodd
        have key : ∀ x y z w : ZMod (M.getD i 1), z ≠ 0 → x * (y * z) * z⁻¹ * w = x * (y * w) := by
          intro x y z w hz
          calc x * (y * z) * z⁻¹ * w = x * (y * w) * (z * z⁻¹) := by ring
            _ = x * (y * w) := by rw [mul_inv_cancel₀ hz, mul_one]
        exact key _ _ _ _ hR

theorem coeffProd_sem (MQ MP : List Nat) (nn : Nat) (own : ShamirPublicPoint)
    (others : List ShamirPublicPoint) (t : Nat) (M : List Nat)
    (hMsub : ∀ i, i < M.length → M.getD i 1 = (MQ ++ MP).getD i 1)
    (hMlen : M.length ≤ (MQ ++ MP).length)
    (pts : List ShamirPublicPoint) (hpts : ∀ a ∈ pts, a ≠ own → a ∈ others) :
    ∃ r, (NewCombiner MQ MP nn own others t).coeffProd M pts own = some r ∧
      ∀ i, ∀ _ : i < M.length, ∀ _ : Fact (Nat.Prime (M.getD i 1)), M.getD i 1 % 2 = 1 →
        ((r.getD i 0 : Nat) : ZMod (M.getD i 1)) =
          ((R64 : Nat) : ZMod (M.getD i 1)) *
            ((pts.filter fun b => b != own).map fun (b : Nat) =>
              (b : ZMod (M.getD i 1)) * ((b : ZMod (M.getD i 1)) - (own : Nat))⁻¹).prod := by
  obtain ⟨r, hr, hsem⟩ := coeffProd_fold_sem MQ MP nn own others t M hMsub hMlen pts hpts
    (NewCombiner MQ MP nn own others t).one
  refine ⟨r, hr, fun i hi hF hodd => ?_⟩
  rw [hsem i hi hF hodd,
    combiner_one_entry_cast' MQ MP nn own others t (lt_of_lt_of_le hi hMlen) (hMsub i hi).symm]

theorem entryC_append_left {p pp : PolyC} {i : Nat} (k : Nat) (h : i < p.length) :
    entryC (p ++ pp) i k = entryC p i k := by
  unfold entryC
  rw [List.getD_append _ _ _ _ h]

theorem entryC_append_right {p pp : PolyC} {i : Nat} (k : Nat) (h : p.length ≤ i) :
    entryC (p ++ pp) i k = entryC pp (i - p.length) k := by
  unfold entryC
  rw [List.getD_append_right _ _ _ _ h]

theorem mulMont_entry (M : List Nat) (n off : Nat) (p : PolyC) (s : RNSScalar) {i k : Nat}
    (hi : i < M.length) (hk : k < n) :
    entryC (mulRNSScalarMontgomeryC M n off p s) i k =
      mred (M.getD i 1) (entryC p i k) (s.getD (off + i) 0) := by
  unfold mulRNSScalarMontgomeryC
  exact entryC_rangeMap _ _ _ hi hk

theorem getD_MQ_append {MQ MP : List Nat} {i : Nat} (hi : i < MQ.length) :
    (MQ ++ MP).getD i 1 = MQ.getD i 1 :=
  List.getD_append _ _ _ _ hi

theorem getD_MP_append {MQ MP : List Nat} {i : Nat} (hi : MQ.length ≤ i) :
    (MQ ++ MP).getD i 1 = MP.getD (i - MQ.length) 1 :=
  List.getD_append_right _ _ _ _ hi

/-- Semantics of `GenAdditiveShareQ` over the base chain: the call succeeds
and each limb entry of the additive share is the own share multiplied by the
product of the Lagrange factors of the used identities. -/
theorem GenAdditiveShareQ_sem (MQ MP : List Nat) (nn : Nat) (own : ShamirPublicPoint)
    (others actives : List ShamirPublicPoint) (t : Nat) (ownShare skOut : PolyC)
    (hlen : t ≤ actives.length)
    (hlk : ∀ a ∈ actives.take t, a ≠ own → a ∈ others) :
    ∃ v, (NewCombiner MQ MP nn own others t).GenAdditiveShareQ actives own ownShare skOut =
        some (none, v) ∧
      v.length = MQ.length ∧
      ∀ i, ∀ _ : i < MQ.length, ∀ _ : Fact (Nat.Prime (MQ.getD i 1)), MQ.getD i 1 % 2 = 1 →
        ∀ k, k < nn →
        ((entryC v i k : Nat) : ZMod (MQ.getD i 1)) =
          (entryC ownShare i k : ZMod (MQ.getD i 1)) *
            (((actives.take t).filter fun b => b != own).map fun (b : Nat) =>
              (b : ZMod (MQ.getD i 1)) * ((b : ZMod (MQ.getD i 1)) - (own : Nat))⁻¹).prod := by
  have hMsub : ∀ i, i < MQ.length → MQ.getD i 1 = (MQ ++ MP).getD i 1 :=
    fun i hi => (getD_MQ_append hi).symm
  have hMlen : MQ.length ≤ (MQ ++ MP).length := by
    rw [List.length_append]
    exact Nat.le_add_right _ _
  obtain ⟨prod, hprod, hprodsem⟩ := coeffProd_sem MQ MP nn own others t MQ hMsub hMlen
    (actives.take t) hlk
  have hnotlt : ¬ actives.length < (NewCombiner MQ MP nn own others t).threshold := by
    have : (NewCombiner MQ MP nn own others t).threshold = t := rfl
    omega
  refine ⟨mulRNSScalarMontgomeryC MQ nn 0 ownShare prod, ?_, ?_, ?_⟩
  · unfold Combiner.GenAdditiveShareQ
    rw [if_neg hnotlt]
    have hmod : (NewCombiner MQ MP nn own others t).moduliQ = MQ := rfl
    have hthr : (NewCombiner MQ MP nn own others t).threshold = t := rfl
    rw [hmod, hthr, hprod]
    rfl
  · simp [mulRNSScalarMontgomeryC]
  · intro i hi hF hodd k hk
    rw [mulMont_entry MQ nn 0 ownShare prod hi hk, Nat.zero_add, cast_mred hodd,
      hprodsem i hi hF hodd]
    have hR := R64_cast_ne_zero (q := MQ.getD i 1) hodd
    have key : ∀ x z w : ZMod (MQ.getD i 1), z ≠ 0 → x * (z * w) * z⁻¹ = x * w := by
      intro x z w hz
      calc x * (z * w) * z⁻¹ = x * w * (z * z⁻¹) := by ring
        _ = x * w := by rw [mul_inv_cancel₀ hz, mul_one]
    exact key _ _ _ hR

/-- Semantics of `GenAdditiveShareQP` over both chains. -/
theorem GenAdditiveShareQP_sem (MQ MP : List Nat) (nn : Nat) (own : ShamirPublicPoint)
    (others actives : List ShamirPublicPoint) (t : Nat) (ownShare skOut : PolyQP)
    (hlen : t ≤ actives.length)
    (hlk : ∀ a ∈ actives.take t, a ≠ own → a ∈ others)
    (hshape : ownShare.valQ.length = MQ.length) :
    ∃ v, (NewCombiner MQ MP nn own others t).GenAdditiveShareQP actives own ownShare skOut =
        some (none, v) ∧
      v.valQ.length = MQ.length ∧ v.valP.length = MP.length ∧
      ∀ i, ∀ _ : i < (MQ ++ MP).length, ∀ _ : Fact (Nat.Prime ((MQ ++ MP).getD i 1)),
        (MQ ++ MP).getD i 1 % 2 = 1 → ∀ k, k < nn →
        ((entryQP v i k : Nat) : ZMod ((MQ ++ MP).getD i 1)) =
          (entryQP ownShare i k : ZMod ((MQ ++ MP).getD i 1)) *
            (((actives.take t).filter fun b => b != own).map fun (b : Nat) =>
              (b : ZMod ((MQ ++ MP).getD i 1)) *
                ((b : ZMod ((MQ ++ MP).getD i 1)) - (own : Nat))⁻¹).prod := by
  obtain ⟨prod, hprod, hprodsem⟩ := coeffProd_sem MQ MP nn own others t (MQ ++ MP)
    (fun i hi => rfl) le_rfl (actives.take t) hlk
  have hnotlt : ¬ actives.length < (NewCombiner MQ MP nn own others t).threshold := by
    have : (NewCombiner MQ MP nn own others t).threshold = t := rfl
    omega
  have hlenQ : (mulRNSScalarMontgomeryC MQ nn 0 ownShare.valQ prod).length = MQ.length := by
    simp [mulRNSScalarMontgomeryC]
  refine ⟨⟨mulRNSScalarMontgomeryC MQ nn 0 ownShare.valQ prod,
           mulRNSScalarMontgomeryC MP nn MQ.length ownShare.valP prod⟩, ?_, hlenQ, ?_, ?_⟩
  · unfold Combiner.GenAdditiveShareQP
    rw [if_neg hnotlt]
    have hmod : (NewCombiner MQ MP nn own others t).moduli = MQ ++ MP := rfl
    have hthr : (NewCombiner MQ MP nn own others t).threshold = t := rfl
    have hmq : (NewCombiner MQ MP nn own others t).moduliQ = MQ := rfl
    rw [hmod, hthr, hprod]
    rfl
  · simp [mulRNSScalarMontgomeryC]
  · intro i hi hF hodd k hk
    by_cases hiQ : i < MQ.length
    · have h1 : entryQP ⟨mulRNSScalarMontgomeryC MQ nn 0 ownShare.valQ prod,
          mulRNSScalarMontgomeryC MP nn MQ.length ownShare.valP prod⟩ i k =
          entryC (mulRNSScalarMontgomeryC MQ nn 0 ownShare.valQ prod) i k := by
        unfold entryQP
        exact entryC_append_left k (by rw [hlenQ]; exact hiQ)
      have h2 : entryQP ownShare i k = entryC ownShare.valQ i k := by
        unfold entryQP
        exact entryC_append_left k (by rw [hshape]; exact hiQ)
      rw [h1, h2, mulMont_entry MQ nn 0 ownShare.valQ prod hiQ hk, Nat.zero_add]
      rw [show MQ.getD i 1 = (MQ ++ MP).getD i 1 from (getD_MQ_append hiQ).symm]
      rw [cast_mred hodd, hprodsem i hi hF hodd]
      have hR := R64_cast_ne_zero (q := (MQ ++ MP).getD i 1) hodd
      have key : ∀ x z w : ZMod ((MQ ++ MP).getD i 1), z ≠ 0 → x * (z * w) * z⁻¹ = x * w := by
        intro x z w hz
        calc x * (z * w) * z⁻¹ = x * w * (z * z⁻¹) := by ring
          _ = x * w := by rw [mul_inv_cancel₀ hz, mul_one]
      exact key _ _ _ hR
    · have hiQ' : MQ.length ≤ i := Nat.le_of_not_lt hiQ
      have hiP : i - MQ.length < MP.length := by
        rw [List.length_append] at hi
        omega
      have h1 : entryQP ⟨mulRNSScalarMontgomeryC MQ nn 0 ownShare.valQ prod,
          mulRNSScalarMontgomeryC MP nn MQ.length ownShare.valP prod⟩ i k =
          entryC (mulRNSScalarMontgomeryC MP nn MQ.length ownShare.valP prod) (i - MQ.length) k := by
        unfold entryQP
        rw [entryC_append_right k (by rw [hlenQ]; exact hiQ'), hlenQ]
      have h2 : entryQP ownShare i k = entryC ownShare.valP (i - MQ.length) k := by
        unfold entryQP
        rw [entryC_append_right k (by rw [hshape]; exact hiQ'), hshape]
      rw [h1, h2, mulMont_entry MP nn MQ.length ownShare.valP prod hiP hk]
      have hoff : MQ.length + (i - MQ.length) = i := by omega
      rw [hoff]
      rw [show MP.getD (i - MQ.length) 1 = (MQ ++ MP).getD i 1 from (getD_MP_append hiQ').symm]
      rw [cast_mred hodd, hprodsem i hi hF hodd]
      have hR := R64_cast_ne_zero (q := (MQ ++ MP).getD i 1) hodd
      have key : ∀ x z w : ZMod ((MQ ++ MP).getD i 1), z ≠ 0 → x * (z * w) * z⁻¹ = x * w := by
        intro x z w hz
        calc x * (z * w) * z⁻¹ = x * w * (z * z⁻¹) := by ring
          _ = x * w := by rw [mul_inv_cancel₀ hz, mul_one]
      exact key _ _ _ hR

/-! ## Semantics of share evaluation -/

theorem evalPolyScalarC_entry (M : List Nat) (n : Nat) (coeffs : List PolyC) (pt : Nat)
    {i k : Nat} (hi : i < M.length) (hk : k < n) :
    entryC (evalPolyScalarC M n coeffs pt) i k =
      hornerNat (M.getD i 1) pt (coeffs.map fun c => entryC c i k) := by
  unfold evalPolyScalarC
  exact entryC_rangeMap _ _ _ hi hk

theorem evalPolyScalarC_entry_cast (M : List Nat) (n : Nat) (coeffs : List PolyC) (pt : Nat)
    {i k : Nat} (hi : i < M.length) (hk : k < n) [Fact (Nat.Prime (M.getD i 1))] :
    ((entryC (evalPolyScalarC M n coeffs pt) i k : Nat) : ZMod (M.getD i 1)) =
      ∑ m ∈ Finset.range coeffs.length,
        (entryC (coeffs.getD m []) i k : ZMod (M.getD i 1)) * (pt : ZMod (M.getD i 1)) ^ m := by
  rw [evalPolyScalarC_entry M n coeffs pt hi hk, cast_hornerNat]
  have hget : ∀ m : Nat, (coeffs.map fun c => entryC c i k).getD m 0 =
      entryC (coeffs.getD m []) i k := fun m => List.getD_map coeffs [] fun c => entryC c i k
  simp only [hget, List.length_map]

/-! ## The Lagrange interpolation identity at zero -/

theorem lagrange_sum_at_zero {F : Type} [Field F] (S : Finset Nat) (v : Nat → F)
    (hinj : Set.InjOn v S) (t : Nat) (hcard : S.card = t) (ht : 1 ≤ t) (c : Nat → F) :
    ∑ x ∈ S, (∑ m ∈ Finset.range t, c m * v x ^ m) *
      ∏ y ∈ S.erase x, (v y * (v y - v x)⁻¹) = c 0 := by
  classical
  set f : Polynomial F := ∑ m ∈ Finset.range t, Polynomial.C (c m) * Polynomial.X ^ m with hf
  have hdeg : f.degree < (S.card : WithBot Nat) := by
    rw [hcard]
    apply lt_of_le_of_lt (Polynomial.degree_sum_le _ _)
    rw [Finset.sup_lt_iff (by exact WithBot.bot_lt_coe t)]
    intro m hm
    apply lt_of_le_of_lt (Polynomial.degree_C_mul_X_pow_le _ _)
    exact_mod_cast Finset.mem_range.mp hm
  have heval : ∀ x : F, f.eval x = ∑ m ∈ Finset.range t, c m * x ^ m := by
    intro x
    rw [hf, Polynomial.eval_finset_sum]
    refine Finset.sum_congr rfl fun m _ => ?_
    rw [Polynomial.eval_mul, Polynomial.eval_C, Polynomial.eval_pow, Polynomial.eval_X]
  have h0 : f.eval 0 = c 0 := by
    rw [heval]
    rw [Finset.sum_eq_single_of_mem 0 (Finset.mem_range.mpr (by omega))]
    · rw [pow_zero, mul_one]
    · intro m _ hm
      rw [zero_pow hm, mul_zero]
  have hfac : ∀ x y : F, (x - y)⁻¹ * (0 - y) = y * (y - x)⁻¹ := by
    intro x y
    rw [show x - y = -(y - x) by ring, inv_neg]
    ring
  have hinterp := Lagrange.eq_interpolate (s := S) (v := v) (f := f) hinj hdeg
  have hz := congrArg (Polynomial.eval 0) hinterp
  rw [h0, Lagrange.interpolate_apply, Polynomial.eval_finset_sum] at hz
  rw [hz]
  refine Finset.sum_congr rfl fun x hx => ?_
  rw [Polynomial.eval_mul, Polynomial.eval_C, heval]
  congr 1
  rw [Lagrange.basis, Polynomial.eval_prod]
  refine Finset.prod_congr rfl fun y hy => ?_
  rw [Lagrange.basisDivisor, Polynomial.eval_mul, Polynomial.eval_C, Polynomial.eval_sub,
    Polynomial.eval_X, Polynomial.eval_C]
  exact (hfac _ _).symm

/-! ## Bridges between list folds and finite sums -/

theorem sum_range_getD {β : Type} [AddCommMonoid β] (f : Nat → β) : ∀ l : List Nat,
    ∑ j ∈ Finset.range l.length, f (l.getD j 0) = (l.map f).sum
  | [] => by simp
  | a :: l => by
    rw [List.length_cons, Finset.sum_range_succ', List.map_cons, List.sum_cons]
    simp only [List.getD_cons_succ, List.getD_cons_zero]
    rw [sum_range_getD f l, add_comm]

theorem prod_filter_ne {β : Type} [CommMonoid β] (l : List Nat) (hnd : l.Nodup) (x : Nat)
    (F : Nat → β) :
    ((l.filter fun b => b != x).map F).prod = ∏ y ∈ l.toFinset.erase x, F y := by
  classical
  rw [← List.prod_toFinset F (hnd.filter _), List.toFinset_filter]
  congr 1
  ext y
  simp [Finset.mem_erase, and_comm]

/-- The per-limb reconstruction identity: the sum over the quorum members of
(value at the member point) times (the member's Lagrange-factor product over
the other quorum points) recovers the constant coefficient. -/
theorem reconstruct_core {F : Type} [Field F] (quorum : List Nat) (t : Nat)
    (hlen : quorum.length = t) (ht : 1 ≤ t) (hnd : quorum.Nodup)
    (hinj : ∀ x ∈ quorum, ∀ y ∈ quorum, x ≠ y → (x : F) ≠ (y : F)) (c : Nat → F) :
    ∑ j ∈ Finset.range t,
      (∑ m ∈ Finset.range t, c m * ((quorum.getD j 0 : Nat) : F) ^ m) *
        ((quorum.filter fun b => b != quorum.getD j 0).map fun (b : Nat) =>
          (b : F) * ((b : F) - ((quorum.getD j 0 : Nat) : Nat))⁻¹).prod = c 0 := by
  classical
  set G : Nat → F := fun x =>
    (∑ m ∈ Finset.range t, c m * (x : F) ^ m) *
      ((quorum.filter fun b => b != x).map fun (b : Nat) => (b : F) * ((b : F) - (x : Nat))⁻¹).prod
    with hG
  have hsum : ∑ j ∈ Finset.range t, G (quorum.getD j 0) = ∑ x ∈ quorum.toFinset, G x := by
    rw [List.sum_toFinset G hnd, ← hlen]
    exact sum_range_getD G quorum
  have hstep : ∀ j ∈ Finset.range t,
      (∑ m ∈ Finset.range t, c m * ((quorum.getD j 0 : Nat) : F) ^ m) *
        ((quorum.filter fun b => b != quorum.getD j 0).map fun (b : Nat) =>
          (b : F) * ((b : F) - ((quorum.getD j 0 : Nat) : Nat))⁻¹).prod = G (quorum.getD j 0) :=
    fun j _ => rfl
  rw [Finset.sum_congr rfl hstep, hsum]
  have hcard : quorum.toFinset.card = t := by
    rw [List.toFinset_card_of_nodup hnd, hlen]
  have hinj' : Set.InjOn (fun x : Nat => (x : F)) quorum.toFinset := by
    intro x hx y hy hxy
    by_contra hne
    exact hinj x (List.mem_toFinset.mp hx) y (List.mem_toFinset.mp hy) hne hxy
  have happ := lagrange_sum_at_zero quorum.toFinset (fun x : Nat => (x : F)) hinj' t hcard ht c
  rw [← happ]
  refine Finset.sum_congr rfl fun x hx => ?_
  rw [hG]
  simp only
  congr 1
  rw [prod_filter_ne quorum hnd x]

theorem getD_mem_of_lt {l : List Nat} {i : Nat} (h : i < l.length) (d : Nat) : l.getD i d ∈ l := by
  rw [List.getD_eq_getElem l d h]
  exact List.getElem_mem h

theorem evalPolyScalarC_entry_cast' (M : List Nat) (n : Nat) (coeffs : List PolyC) (pt : Nat)
    {i k q : Nat} (hi : i < M.length) (hk : k < n) (hq : M.getD i 1 = q)
    [Fact (Nat.Prime q)] :
    ((entryC (evalPolyScalarC M n coeffs pt) i k : Nat) : ZMod q) =
      ∑ m ∈ Finset.range coeffs.length,
        (entryC (coeffs.getD m []) i k : ZMod q) * (pt : ZMod q) ^ m := by
  subst hq
  exact evalPolyScalarC_entry_cast M n coeffs pt hi hk

theorem evalPolyScalarC_length (M : List Nat) (n : Nat) (coeffs : List PolyC) (pt : Nat) :
    (evalPolyScalarC M n coeffs pt).length = M.length := by
  simp [evalPolyScalarC]

/-- The per-limb, per-slot reading of an evaluated `QP` share: the Horner
value of the coefficient entries at the recipient point. -/
theorem GenShamirSecretShareQP_entry_cast (thr : Thresholdizer) (pt : Nat)
    (pl : ShamirPolynomialQP) {i k q : Nat}
    (hi : i < (thr.moduliQ ++ thr.moduliP).length) (hk : k < thr.n)
    (hq : (thr.moduliQ ++ thr.moduliP).getD i 1 = q) [Fact (Nat.Prime q)]
    (hshapes : ∀ p ∈ pl.Value, p.valQ.length = thr.moduliQ.length) :
    ((entryQP (thr.GenShamirSecretShareQP pt pl).poly i k : Nat) : ZMod q) =
      ∑ m ∈ Finset.range pl.Value.length,
        (entryQP (pl.Value.getD m ⟨[], []⟩) i k : ZMod q) * (pt : ZMod q) ^ m := by
  have hgetQ : ∀ m : Nat, (pl.Value.map PolyQP.valQ).getD m [] =
      (pl.Value.getD m ⟨[], []⟩).valQ := fun m => List.getD_map pl.Value ⟨[], []⟩ PolyQP.valQ
  have hgetP : ∀ m : Nat, (pl.Value.map PolyQP.valP).getD m [] =
      (pl.Value.getD m ⟨[], []⟩).valP := fun m => List.getD_map pl.Value ⟨[], []⟩ PolyQP.valP
  have hcoeffentry : ∀ m, m < pl.Value.length →
      entryQP (pl.Value.getD m ⟨[], []⟩) i k =
        if i < thr.moduliQ.length then entryC (pl.Value.getD m ⟨[], []⟩).valQ i k
        else entryC (pl.Value.getD m ⟨[], []⟩).valP (i - thr.moduliQ.length) k := by
    intro m hm
    have hmem : pl.Value.getD m ⟨[], []⟩ ∈ pl.Value := by
      rw [List.getD_eq_getElem pl.Value ⟨[], []⟩ hm]
      exact List.getElem_mem hm
    have hsh := hshapes _ hmem
    unfold entryQP
    by_cases hiQ : i < thr.moduliQ.length
    · rw [if_pos hiQ]
      exact entryC_append_left k (by rw [hsh]; exact hiQ)
    · rw [if_neg hiQ]
      rw [entryC_append_right k (by rw [hsh]; exact Nat.le_of_not_lt hiQ), hsh]
  by_cases hiQ : i < thr.moduliQ.length
  · have h1 : entryQP (thr.GenShamirSecretShareQP pt pl).poly i k =
        entryC (evalPolyScalarC thr.moduliQ thr.n (pl.Value.map PolyQP.valQ) pt) i k := by
      unfold entryQP Thresholdizer.GenShamirSecretShareQP
      exact entryC_append_left k (by rw [evalPolyScalarC_length]; exact hiQ)
    rw [h1, evalPolyScalarC_entry_cast' thr.moduliQ thr.n _ pt hiQ hk
      (by rw [← hq]; exact (getD_MQ_append hiQ).symm)]
    rw [List.length_map]
    refine Finset.sum_congr rfl fun m hm => ?_
    rw [hgetQ m, hcoeffentry m (Finset.mem_range.mp hm), if_pos hiQ]
  · have hiQ' : thr.moduliQ.length ≤ i := Nat.le_of_not_lt hiQ
    have hiP : i - thr.moduliQ.length < thr.moduliP.length := by
      rw [List.length_append] at hi
      omega
    have h1 : entryQP (thr.GenShamirSecretShareQP pt pl).poly i k =
        entryC (evalPolyScalarC thr.moduliP thr.n (pl.Value.map PolyQP.valP) pt)
          (i - thr.moduliQ.length) k := by
      unfold entryQP Thresholdizer.GenShamirSecretShareQP
      rw [entryC_append_right k (by rw [evalPolyScalarC_length]; exact hiQ'),
        evalPolyScalarC_length]
    rw [h1, evalPolyScalarC_entry_cast' thr.moduliP thr.n _ pt hiP hk
      (by rw [← hq]; exact (getD_MP_append hiQ').symm)]
    rw [List.length_map]
    refine Finset.sum_congr rfl fun m hm => ?_
    rw [hgetP m, hcoeffentry m (Finset.mem_range.mp hm), if_neg hiQ]

/-- The value carried by a successful combination result. -/
def okOutQP (r : Option (Option TSSError × PolyQP)) : PolyQP := (r.getD (none, ⟨[], []⟩)).2

/-- The additive-share computation run by quorum member `j`: a combiner built
over exactly the quorum, all quorum members active, the member's own point,
and the member's aggregated share. -/
def memberAdditive (thr : Thresholdizer) (quorum : List ShamirPublicPoint) (t j : Nat)
    (share : PolyQP) (skOut : PolyQP) : Option (Option TSSError × PolyQP) :=
  (NewCombiner thr.moduliQ thr.moduliP thr.n (quorum.getD j 0) quorum t).GenAdditiveShareQP
    quorum (quorum.getD j 0) share skOut

/-- Shared reconstruction engine: every quorum member's combination succeeds,
and per limb the additive shares sum to the constant coefficient of whatever
polynomial the member shares interpolate. -/
theorem quorum_combine_sum (thr : Thresholdizer) (t : Nat) (ht : 1 ≤ t)
    (quorum : List ShamirPublicPoint) (hqlen : quorum.length = t) (hnd : quorum.Nodup)
    (skOut : PolyQP) (shares : Nat → PolyQP)
    (hshape : ∀ j, j < t → (shares j).valQ.length = thr.moduliQ.length) :
    (∀ j, j < t → memberAdditive thr quorum t j (shares j) skOut =
        some (none, okOutQP (memberAdditive thr quorum t j (shares j) skOut))) ∧
    (∀ i, ∀ _ : i < (thr.moduliQ ++ thr.moduliP).length,
      ∀ _ : Fact (Nat.Prime ((thr.moduliQ ++ thr.moduliP).getD i 1)),
      (thr.moduliQ ++ thr.moduliP).getD i 1 % 2 = 1 →
      (∀ x ∈ quorum, ∀ y ∈ quorum, x ≠ y →
        x % (thr.moduliQ ++ thr.moduliP).getD i 1 ≠ y % (thr.moduliQ ++ thr.moduliP).getD i 1) →
      ∀ k, k < thr.n → ∀ c : Nat → ZMod ((thr.moduliQ ++ thr.moduliP).getD i 1),
      (∀ j, j < t → ((entryQP (shares j) i k : Nat) : ZMod ((thr.moduliQ ++ thr.moduliP).getD i 1)) =
          ∑ m ∈ Finset.range t,
            c m * ((quorum.getD j 0 : Nat) : ZMod ((thr.moduliQ ++ thr.moduliP).getD i 1)) ^ m) →
      ((∑ j ∈ Finset.range t, entryQP (okOutQP (memberAdditive thr quorum t j (shares j) skOut)) i k :
          Nat) : ZMod ((thr.moduliQ ++ thr.moduliP).getD i 1)) = c 0) := by
  have hlen : t ≤ quorum.length := by omega
  have hsem : ∀ j, j < t → ∃ v,
      memberAdditive thr quorum t j (shares j) skOut = some (none, v) ∧
      v.valQ.length = thr.moduliQ.length ∧ v.valP.length = thr.moduliP.length ∧
      ∀ i, ∀ _ : i < (thr.moduliQ ++ thr.moduliP).length,
        ∀ _ : Fact (Nat.Prime ((thr.moduliQ ++ thr.moduliP).getD i 1)),
        (thr.moduliQ ++ thr.moduliP).getD i 1 % 2 = 1 → ∀ k, k < thr.n →
        ((entryQP v i k : Nat) : ZMod ((thr.moduliQ ++ thr.moduliP).getD i 1)) =
          (entryQP (shares j) i k : ZMod ((thr.moduliQ ++ thr.moduliP).getD i 1)) *
            (((quorum.take t).filter fun b => b != quorum.getD j 0).map fun (b : Nat) =>
              (b : ZMod ((thr.moduliQ ++ thr.moduliP).getD i 1)) *
                ((b : ZMod ((thr.moduliQ ++ thr.moduliP).getD i 1)) - (quorum.getD j 0 : Nat))⁻¹).prod := by
    intro j hj
    exact GenAdditiveShareQP_sem thr.moduliQ thr.moduliP thr.n (quorum.getD j 0) quorum quorum t
      (shares j) skOut hlen (fun a ha _ => List.take_subset t quorum ha) (hshape j hj)
  constructor
  · intro j hj
    obtain ⟨v, hv, _⟩ := hsem j hj
    rw [hv]
    rfl
  · intro i hi hF hodd hdisti k hk c hc
    rw [Nat.cast_sum]
    have htake : quorum.take t = quorum := by
      rw [← hqlen]
      exact List.take_length quorum
    have hterm : ∀ j ∈ Finset.range t,
        ((entryQP (okOutQP (memberAdditive thr quorum t j (shares j) skOut)) i k : Nat) :
            ZMod ((thr.moduliQ ++ thr.moduliP).getD i 1)) =
        (∑ m ∈ Finset.range t,
            c m * ((quorum.getD j 0 : Nat) : ZMod ((thr.moduliQ ++ thr.moduliP).getD i 1)) ^ m) *
          ((quorum.filter fun b => b != quorum.getD j 0).map fun (b : Nat) =>
            (b : ZMod ((thr.moduliQ ++ thr.moduliP).getD i 1)) *
              ((b : ZMod ((thr.moduliQ ++ thr.moduliP).getD i 1)) - (quorum.getD j 0 : Nat))⁻¹).prod := by
      intro j hjmem
      have hj := Finset.mem_range.mp hjmem
      obtain ⟨v, hv, _, _, hentry⟩ := hsem j hj
      have hok : okOutQP (memberAdditive thr quorum t j (shares j) skOut) = v := by
        rw [hv]
        rfl
      rw [hok, hentry i hi hF hodd k hk, hc j hj, htake]
    rw [Finset.sum_congr rfl hterm]
    have hinj : ∀ x ∈ quorum, ∀ y ∈ quorum, x ≠ y →
        ((x : Nat) : ZMod ((thr.moduliQ ++ thr.moduliP).getD i 1)) ≠ (y : Nat) := by
      intro x hx y hy hxy h
      rw [ZMod.natCast_eq_natCast_iff] at h
      exact hdisti x hx y hy hxy h
    exact reconstruct_core quorum t hqlen ht hnd hinj c

theorem sampleQP_valQ_length (thr : Thresholdizer) (c : Nat) :
    (thr.sampleQP c).valQ.length = thr.moduliQ.length := by
  simp [Thresholdizer.sampleQP, sampleC]

/-- The `QP` share a quorum member holds after the dealing phase of a single
dealer: the Shamir polynomial evaluated at the member's own point. -/
def memberShare (thr : Thresholdizer) (poly : ShamirPolynomialQP)
    (quorum : List ShamirPublicPoint) (j : Nat) : PolyQP :=
  (thr.GenShamirSecretShareQP (quorum.getD j 0) poly).poly

theorem memberShare_valQ_length (thr : Thresholdizer) (poly : ShamirPolynomialQP)
    (quorum : List ShamirPublicPoint) (j : Nat) :
    (memberShare thr poly quorum j).valQ.length = thr.moduliQ.length := by
  simp [memberShare, Thresholdizer.GenShamirSecretShareQP, evalPolyScalarC_length]

theorem GenShamirPolynomialQP_ok (thr : Thresholdizer) (t ctr : Nat) (ht : 1 ≤ t)
    (secret : PolyQP) (poly : ShamirPolynomialQP)
    (hpoly : (thr.GenShamirPolynomialQP t secret ctr).1 = Except.ok poly) :
    poly = ⟨secret :: (List.range (t - 1)).map fun m => thr.sampleQP (ctr + m)⟩ := by
  have h : (thr.GenShamirPolynomialQP t secret ctr).1 =
      Except.ok (⟨secret :: (List.range (t - 1)).map fun m => thr.sampleQP (ctr + m)⟩ :
        ShamirPolynomialQP) := by
    unfold Thresholdizer.GenShamirPolynomialQP
    rw [if_neg (by omega : ¬ t < 1)]
  rw [h] at hpoly
  exact (Except.ok.inj hpoly).symm

/-- C1, amended: reconstruction correctness holds provided the quorum
identities are pairwise distinct modulo every modulus of the active chain
(plain distinctness of the integer identities is not enough).  Every quorum
member's combination succeeds without error, and per limb of the chain the
additive shares sum to the shared secret. -/
theorem claim1_reconstruction (thr : Thresholdizer) (t ctr : Nat) (ht : 1 ≤ t)
    (secret : PolyQP) (skOut : PolyQP)
    (hsecQ : secret.valQ.length = thr.moduliQ.length)
    (quorum : List ShamirPublicPoint) (hqlen : quorum.length = t) (hnd : quorum.Nodup)
    (hprime : ∀ q ∈ thr.moduliQ ++ thr.moduliP, Nat.Prime q ∧ q % 2 = 1)
    (hdist : ∀ q ∈ thr.moduliQ ++ thr.moduliP, ∀ x ∈ quorum, ∀ y ∈ quorum, x ≠ y →
      x % q ≠ y % q)
    (poly : ShamirPolynomialQP)
    (hpoly : (thr.GenShamirPolynomialQP t secret ctr).1 = Except.ok poly) :
    (∀ j, j < t → memberAdditive thr quorum t j (memberShare thr poly quorum j) skOut =
        some (none, okOutQP (memberAdditive thr quorum t j (memberShare thr poly quorum j) skOut))) ∧
    ∀ i, i < (thr.moduliQ ++ thr.moduliP).length → ∀ k, k < thr.n →
      ((∑ j ∈ Finset.range t,
          entryQP (okOutQP (memberAdditive thr quorum t j (memberShare thr poly quorum j) skOut))
            i k : Nat) : ZMod ((thr.moduliQ ++ thr.moduliP).getD i 1)) = entryQP secret i k := by
  have hpoly' := GenShamirPolynomialQP_ok thr t ctr ht secret poly hpoly
  have hlenVal : poly.Value.length = t := by
    rw [hpoly']
    simp only [List.length_cons, List.length_map, List.length_range]
    omega
  have hshapes : ∀ p ∈ poly.Value, p.valQ.length = thr.moduliQ.length := by
    rw [hpoly']
    intro p hp
    rcases List.mem_cons.mp hp with h | h
    · rw [h]
      exact hsecQ
    · obtain ⟨m, _, hpm⟩ := List.mem_map.mp h
      rw [← hpm]
      exact sampleQP_valQ_length thr _
  have hc0 : poly.Value.getD 0 ⟨[], []⟩ = secret := by
    rw [hpoly']
    rfl
  obtain ⟨hsucc, hsum⟩ := quorum_combine_sum thr t ht quorum hqlen hnd skOut
    (memberShare thr poly quorum) (fun j _ => memberShare_valQ_length thr poly quorum j)
  refine ⟨hsucc, ?_⟩
  intro i hi k hk
  have hqmem : (thr.moduliQ ++ thr.moduliP).getD i 1 ∈ thr.moduliQ ++ thr.moduliP :=
    getD_mem_of_lt hi 1
  obtain ⟨hqprime, hqodd⟩ := hprime _ hqmem
  have hF : Fact (Nat.Prime ((thr.moduliQ ++ thr.moduliP).getD i 1)) := ⟨hqprime⟩
  have hc : ∀ j, j < t →
      ((entryQP (memberShare thr poly quorum j) i k : Nat) :
          ZMod ((thr.moduliQ ++ thr.moduliP).getD i 1)) =
        ∑ m ∈ Finset.range t,
          ((entryQP (poly.Value.getD m ⟨[], []⟩) i k : Nat) :
              ZMod ((thr.moduliQ ++ thr.moduliP).getD i 1)) *
            ((quorum.getD j 0 : Nat) : ZMod ((thr.moduliQ ++ thr.moduliP).getD i 1)) ^ m := by
    intro j hj
    have := GenShamirSecretShareQP_entry_cast thr (quorum.getD j 0) poly hi hk rfl hshapes
    rw [hlenVal] at this
    exact this
  have := hsum i hi hF hqodd (hdist _ hqmem) k hk
    (fun m => ((entryQP (poly.Value.getD m ⟨[], []⟩) i k : Nat) :
      ZMod ((thr.moduliQ ++ thr.moduliP).getD i 1))) hc
  rw [this]
  show ((entryQP (poly.Value.getD 0 ⟨[], []⟩) i k : Nat) :
      ZMod ((thr.moduliQ ++ thr.moduliP).getD i 1)) = _
  rw [hc0]

/-- A concrete thresholdizer over the single-limb chain `Q = [5]`, ring
degree 1, with an all-zero sampler stream. -/
def thrA : Thresholdizer := ⟨[5], [], 1, fun _ _ _ => 0, fun _ _ _ => 0⟩

/-- The Shamir polynomial `thrA` generates for secret 1 at threshold 2. -/
def polyA : ShamirPolynomialQP := ⟨[⟨[[1]], []⟩, ⟨[[0]], []⟩]⟩

/-- The Shamir polynomial `thrA` generates for secret 3 at threshold 2. -/
def polyB : ShamirPolynomialQP := ⟨[⟨[[3]], []⟩, ⟨[[0]], []⟩]⟩

/-- C1 counterexample: over the chain `[5]` with threshold 2, the identities
1 and 6 are distinct integers, yet (being congruent modulo 5) the two
additive shares sum to 0 modulo 5 while the shared secret is 1 modulo 5:
plain distinctness of the identities does not give reconstruction
correctness. -/
theorem claim1_counterexample :
    (1 ≤ 2 ∧ ([1, 6] : List ShamirPublicPoint).Nodup ∧
      (∀ q ∈ thrA.moduliQ ++ thrA.moduliP, Nat.Prime q ∧ q % 2 = 1) ∧
      (thrA.GenShamirPolynomialQP 2 ⟨[[1]], []⟩ 0).1 = Except.ok polyA) ∧
    (∑ j ∈ Finset.range 2, entryQP (okOutQP (memberAdditive thrA [1, 6] 2 j
        (memberShare thrA polyA [1, 6] j) ⟨[[0]], []⟩)) 0 0) % 5 = 0 ∧
    entryQP ⟨[[1]], []⟩ 0 0 % 5 = 1 := by
  refine ⟨⟨by omega, by decide, by decide, rfl⟩, by decide, by decide⟩

/-- C1 witness: the amended reconstruction theorem applied at the chain
`[5]`, threshold 2, quorum `[1, 2]` (distinct modulo 5) and secret 3. -/
theorem claim1_witness :
    ((∑ j ∈ Finset.range 2, entryQP (okOutQP (memberAdditive thrA [1, 2] 2 j
        (memberShare thrA polyB [1, 2] j) ⟨[[0]], []⟩)) 0 0 : Nat) :
      ZMod ((thrA.moduliQ ++ thrA.moduliP).getD 0 1)) = entryQP ⟨[[3]], []⟩ 0 0 :=
  (claim1_reconstruction thrA 2 0 (by omega) ⟨[[3]], []⟩ ⟨[[0]], []⟩ (by decide) [1, 2] (by decide)
    (by decide) (by decide) (by decide) polyB (by rfl)).2 0 (by decide) 0 (by decide)

/-- C4: with fewer active identities than the threshold, both combination
operations return the insufficient-parties error before any arithmetic,
leaving the output argument unchanged and returning no reconstructed
value. -/
theorem claim4_insufficient (cmb : Combiner) (actives : List ShamirPublicPoint)
    (own : ShamirPublicPoint) :
    (∀ share skOut : PolyC, actives.length < cmb.threshold →
      cmb.GenAdditiveShareQ actives own share skOut =
        some (some .insufficientParties, skOut)) ∧
    (∀ share skOut : PolyQP, actives.length < cmb.threshold →
      cmb.GenAdditiveShareQP actives own share skOut =
        some (some .insufficientParties, skOut)) := by
  constructor
  · intro share skOut h
    unfold Combiner.GenAdditiveShareQ
    rw [if_pos h]
  · intro share skOut h
    unfold Combiner.GenAdditiveShareQP
    rw [if_pos h]

/-- C4 witness: a single active identity against threshold 2. -/
theorem claim4_witness :
    (NewCombiner [5] [] 1 1 [1, 2] 2).GenAdditiveShareQ [1] 1 [[3]] [[7]] =
        some (some .insufficientParties, [[7]]) ∧
    (NewCombiner [5] [] 1 1 [1, 2] 2).GenAdditiveShareQP [1] 1 ⟨[[3]], []⟩ ⟨[[7]], []⟩ =
        some (some .insufficientParties, ⟨[[7]], []⟩) :=
  ⟨(claim4_insufficient (NewCombiner [5] [] 1 1 [1, 2] 2) [1] 1).1 [[3]] [[7]] (by decide),
   (claim4_insufficient (NewCombiner [5] [] 1 1 [1, 2] 2) [1] 1).2 ⟨[[3]], []⟩ ⟨[[7]], []⟩
     (by decide)⟩

theorem sampleQ_length (thr : Thresholdizer) (c : Nat) :
    (thr.sampleQ c).length = thr.moduliQ.length := by
  simp [Thresholdizer.sampleQ, sampleC]

theorem sampleQP_valP_length (thr : Thresholdizer) (c : Nat) :
    (thr.sampleQP c).valP.length = thr.moduliP.length := by
  simp [Thresholdizer.sampleQP, sampleC]

/-- C5: polynomial generation fails exactly when the threshold is below 1,
consuming no randomness and producing no polynomial; for threshold at least
1 it returns exactly `threshold` coefficients, coefficient 0 a copy of the
secret, coefficient m (1 ≤ m < threshold) the m-th fresh uniform sampler
read, advancing the sampler counter by threshold − 1; every sampled
coefficient sits at the ring's level, hence at the secret's level whenever
the secret is at the ring's level. -/
theorem claim5_genpoly (thr : Thresholdizer) (threshold ctr : Nat) :
    (∀ secret : PolyC,
      (threshold = 0 →
        thr.GenShamirPolynomialQ threshold secret ctr = (.error .invalidThreshold, ctr)) ∧
      (1 ≤ threshold → ∃ gen : ShamirPolynomialQ,
        thr.GenShamirPolynomialQ threshold secret ctr = (.ok gen, ctr + (threshold - 1)) ∧
        gen.Value.length = threshold ∧
        gen.Value.getD 0 [] = secret ∧
        (∀ m, 1 ≤ m → m < threshold → gen.Value.getD m [] = thr.sampleQ (ctr + (m - 1))) ∧
        (secret.length = thr.moduliQ.length →
          ∀ m, m < threshold → (gen.Value.getD m []).length = secret.length))) ∧
    (∀ secret : PolyQP,
      (threshold = 0 →
        thr.GenShamirPolynomialQP threshold secret ctr = (.error .invalidThreshold, ctr)) ∧
      (1 ≤ threshold → ∃ gen : ShamirPolynomialQP,
        thr.GenShamirPolynomialQP threshold secret ctr = (.ok gen, ctr + (threshold - 1)) ∧
        gen.Value.length = threshold ∧
        gen.Value.getD 0 ⟨[], []⟩ = secret ∧
        (∀ m, 1 ≤ m → m < threshold →
          gen.Value.getD m ⟨[], []⟩ = thr.sampleQP (ctr + (m - 1))) ∧
        (secret.valQ.length = thr.moduliQ.length → secret.valP.length = thr.moduliP.length →
          ∀ m, m < threshold →
            (gen.Value.getD m ⟨[], []⟩).valQ.length = secret.valQ.length ∧
            (gen.Value.getD m ⟨[], []⟩).valP.length = secret.valP.length))) := by
  constructor
  · intro secret
    constructor
    · intro h0
      subst h0
      rfl
    · intro h1
      refine ⟨⟨secret :: (List.range (threshold - 1)).map fun i => thr.sampleQ (ctr + i)⟩,
        ?_, ?_, rfl, ?_, ?_⟩
      · unfold Thresholdizer.GenShamirPolynomialQ
        rw [if_neg (by omega)]
      · simp only [List.length_cons, List.length_map, List.length_range]
        omega
      · intro m hm1 hmt
        obtain ⟨m', rfl⟩ : ∃ m', m = m' + 1 := ⟨m - 1, by omega⟩
        rw [List.getD_cons_succ, getD_rangeMap (threshold - 1) _ _ (by omega)]
        simp
      · intro hsec m hmt
        by_cases hm0 : m = 0
        · subst hm0
          rw [List.getD_cons_zero]
        · obtain ⟨m', rfl⟩ : ∃ m', m = m' + 1 := ⟨m - 1, by omega⟩
          rw [List.getD_cons_succ, getD_rangeMap (threshold - 1) _ _ (by omega),
            sampleQ_length, hsec]
  · intro secret
    constructor
    · intro h0
      subst h0
      rfl
    · intro h1
      refine ⟨⟨secret :: (List.range (threshold - 1)).map fun i => thr.sampleQP (ctr + i)⟩,
        ?_, ?_, rfl, ?_, ?_⟩
      · unfold Thresholdizer.GenShamirPolynomialQP
        rw [if_neg (by omega)]
      · simp only [List.length_cons, List.length_map, List.length_range]
        omega
      · intro m hm1 hmt
        obtain ⟨m', rfl⟩ : ∃ m', m = m' + 1 := ⟨m - 1, by omega⟩
        rw [List.getD_cons_succ, getD_rangeMap (threshold - 1) _ _ (by omega)]
        simp
      · intro hsecQ hsecP m hmt
        by_cases hm0 : m = 0
        · subst hm0
          rw [List.getD_cons_zero]
          exact ⟨rfl, rfl⟩
        · obtain ⟨m', rfl⟩ : ∃ m', m = m' + 1 := ⟨m - 1, by omega⟩
          rw [List.getD_cons_succ, getD_rangeMap (threshold - 1) _ _ (by omega)]
          exact ⟨by rw [sampleQP_valQ_length, hsecQ], by rw [sampleQP_valP_length, hsecP]⟩

/-- C5 witness: the failing branch at threshold 0 and the succeeding branch
at threshold 2. -/
theorem claim5_witness :
    thrA.GenShamirPolynomialQ 0 [[2]] 7 = (.error .invalidThreshold, 7) ∧
    ∃ gen : ShamirPolynomialQP,
      thrA.GenShamirPolynomialQP 2 ⟨[[3]], []⟩ 5 = (.ok gen, 5 + (2 - 1)) ∧
      gen.Value.length = 2 ∧
      gen.Value.getD 0 ⟨[], []⟩ = ⟨[[3]], []⟩ ∧
      (∀ m, 1 ≤ m → m < 2 → gen.Value.getD m ⟨[], []⟩ = thrA.sampleQP (5 + (m - 1))) ∧
      ((⟨[[3]], []⟩ : PolyQP).valQ.length = thrA.moduliQ.length →
        (⟨[[3]], []⟩ : PolyQP).valP.length = thrA.moduliP.length →
        ∀ m, m < 2 →
          (gen.Value.getD m ⟨[], []⟩).valQ.length = (⟨[[3]], []⟩ : PolyQP).valQ.length ∧
          (gen.Value.getD m ⟨[], []⟩).valP.length = (⟨[[3]], []⟩ : PolyQP).valP.length) :=
  ⟨((claim5_genpoly thrA 0 7).1 [[2]]).1 rfl,
   ((claim5_genpoly thrA 2 5).2 ⟨[[3]], []⟩).2 (by omega)⟩

theorem cast_addMod_gen (q a b : Nat) : ((addMod q a b : Nat) : ZMod q) = (a : ZMod q) + b := by
  unfold addMod
  rw [ZMod.natCast_mod, Nat.cast_add]

theorem getD_take {l : List Nat} {n i : Nat} (h : i < n) (d : Nat) :
    (l.take n).getD i d = l.getD i d := by
  rw [List.getD_eq_getElem?_getD, List.getD_eq_getElem?_getD, List.getElem?_take, if_pos h]

theorem addPolyC_entry (M : List Nat) (n : Nat) (a b : PolyC) {i k : Nat}
    (hi : i < M.length) (hk : k < n) :
    entryC (addPolyC M n a b) i k = addMod (M.getD i 1) (entryC a i k) (entryC b i k) := by
  unfold addPolyC
  exact entryC_rangeMap _ _ _ hi hk

theorem addPolyC_length (M : List Nat) (n : Nat) (a b : PolyC) :
    (addPolyC M n a b).length = M.length := by
  simp [addPolyC]

/-- The level condition `AggregateShares` checks. -/
def aggLevelsOk (s1 s2 out : ShamirSecretShareQP) : Prop :=
  s1.poly.levelQ = s2.poly.levelQ ∧ s1.poly.levelQ = out.poly.levelQ ∧
  s1.poly.levelP = s2.poly.levelP ∧ s1.poly.levelP = out.poly.levelP

instance (s1 s2 out : ShamirSecretShareQP) : Decidable (aggLevelsOk s1 s2 out) := by
  unfold aggLevelsOk
  infer_instance

theorem AggregateShares_mismatch (thr : Thresholdizer) (s1 s2 out : ShamirSecretShareQP)
    (h : ¬ aggLevelsOk s1 s2 out) :
    thr.AggregateShares s1 s2 out = (some .levelMismatch, out) := by
  unfold Thresholdizer.AggregateShares
  rw [if_pos]
  unfold aggLevelsOk at h
  by_contra hc
  push_neg at hc
  exact h ⟨hc.1, hc.2.1, hc.2.2.1, hc.2.2.2⟩

theorem AggregateShares_match (thr : Thresholdizer) (s1 s2 out : ShamirSecretShareQP)
    (h : aggLevelsOk s1 s2 out) :
    thr.AggregateShares s1 s2 out =
      (none, ⟨⟨addPolyC (thr.moduliQ.take s1.poly.valQ.length) thr.n s1.poly.valQ s2.poly.valQ,
               addPolyC (thr.moduliP.take s1.poly.valP.length) thr.n s1.poly.valP s2.poly.valP⟩⟩) := by
  unfold Thresholdizer.AggregateShares
  rw [if_neg]
  obtain ⟨h1, h2, h3, h4⟩ := h
  push_neg
  exact ⟨h1, h2, h3, h4⟩

/-- C3: AggregateShares rejects with the level-mismatch error, leaving the
output untouched, exactly when any two of the six operand levels disagree;
when all levels agree it returns no error and stores the pointwise per-limb
modular sum of the two shares over the active chain. -/
theorem claim3_aggregate (thr : Thresholdizer) (s1 s2 out : ShamirSecretShareQP) :
    (¬ aggLevelsOk s1 s2 out →
      thr.AggregateShares s1 s2 out = (some .levelMismatch, out)) ∧
    (aggLevelsOk s1 s2 out →
      (thr.AggregateShares s1 s2 out).1 = none ∧
      (thr.AggregateShares s1 s2 out).2.poly.valQ.length =
        min thr.moduliQ.length s1.poly.valQ.length ∧
      (∀ i, i < s1.poly.valQ.length → i < thr.moduliQ.length → ∀ k, k < thr.n →
        ((entryC (thr.AggregateShares s1 s2 out).2.poly.valQ i k : Nat) :
            ZMod (thr.moduliQ.getD i 1)) =
          (entryC s1.poly.valQ i k : ZMod (thr.moduliQ.getD i 1)) +
            (entryC s2.poly.valQ i k : ZMod (thr.moduliQ.getD i 1))) ∧
      (∀ i, i < s1.poly.valP.length → i < thr.moduliP.length → ∀ k, k < thr.n →
        ((entryC (thr.AggregateShares s1 s2 out).2.poly.valP i k : Nat) :
            ZMod (thr.moduliP.getD i 1)) =
          (entryC s1.poly.valP i k : ZMod (thr.moduliP.getD i 1)) +
            (entryC s2.poly.valP i k : ZMod (thr.moduliP.getD i 1)))) := by
  refine ⟨AggregateShares_mismatch thr s1 s2 out, fun h => ?_⟩
  rw [AggregateShares_match thr s1 s2 out h]
  refine ⟨rfl, ?_, ?_, ?_⟩
  · rw [addPolyC_length, List.length_take]
    omega
  · intro i hiS hiM k hk
    have hit : i < (thr.moduliQ.take s1.poly.valQ.length).length := by
      rw [List.length_take]
      omega
    rw [addPolyC_entry _ _ _ _ hit hk, getD_take hiS 1, cast_addMod_gen]
  · intro i hiS hiM k hk
    have hit : i < (thr.moduliP.take s1.poly.valP.length).length := by
      rw [List.length_take]
      omega
    rw [addPolyC_entry _ _ _ _ hit hk, getD_take hiS 1, cast_addMod_gen]

/-- C3 witness: a mismatched aggregation is rejected with the output intact,
and a matched one stores the per-limb sum (2 + 4 is 1 modulo 5). -/
theorem claim3_witness :
    (thrA.AggregateShares ⟨⟨[[1], [2]], []⟩⟩ ⟨⟨[[4]], []⟩⟩ ⟨⟨[[9]], []⟩⟩ =
      (some .levelMismatch, ⟨⟨[[9]], []⟩⟩)) ∧
    (thrA.AggregateShares ⟨⟨[[2]], []⟩⟩ ⟨⟨[[4]], []⟩⟩ ⟨⟨[[9]], []⟩⟩).1 = none ∧
    ((entryC (thrA.AggregateShares ⟨⟨[[2]], []⟩⟩ ⟨⟨[[4]], []⟩⟩ ⟨⟨[[9]], []⟩⟩).2.poly.valQ 0 0 :
        Nat) : ZMod (thrA.moduliQ.getD 0 1)) =
      (entryC [[2]] 0 0 : ZMod (thrA.moduliQ.getD 0 1)) +
        (entryC [[4]] 0 0 : ZMod (thrA.moduliQ.getD 0 1)) :=
  ⟨(claim3_aggregate thrA ⟨⟨[[1], [2]], []⟩⟩ ⟨⟨[[4]], []⟩⟩ ⟨⟨[[9]], []⟩⟩).1 (by decide),
   ((claim3_aggregate thrA ⟨⟨[[2]], []⟩⟩ ⟨⟨[[4]], []⟩⟩ ⟨⟨[[9]], []⟩⟩).2 (by decide)).1,
   ((claim3_aggregate thrA ⟨⟨[[2]], []⟩⟩ ⟨⟨[[4]], []⟩⟩ ⟨⟨[[9]], []⟩⟩).2
     (by decide)).2.2.1 0 (by decide) (by decide) 0 (by decide)⟩

/-- C2 counterexample: both combination operations accept operands declared
at different levels and return a value with no error at all — no
LevelMismatch rejection happens in the combination path. -/
theorem claim2_counterexample :
    ((⟨[[1], [2]], []⟩ : PolyQP).levelQ ≠ (⟨[[0]], []⟩ : PolyQP).levelQ) ∧
    (((NewCombiner [5] [] 1 1 [1, 2] 1).GenAdditiveShareQP [1] 1 ⟨[[1], [2]], []⟩
        ⟨[[0]], []⟩).map Prod.fst = some none) ∧
    (([[1], [2]] : PolyC).length ≠ ([[0]] : PolyC).length) ∧
    (((NewCombiner [5] [] 1 1 [1, 2] 1).GenAdditiveShareQ [1] 1 [[1], [2]]
        [[0]]).map Prod.fst = some none) := by
  refine ⟨by decide, by decide, by decide, by decide⟩

/-- C2, amended: the combination operations perform no level check at all:
the only error they can return is the insufficient-parties one (never
LevelMismatch), and on that error the output argument is returned unchanged;
level-mismatch rejection before mutation holds only for the aggregation
path (`AggregateShares`). -/
theorem claim2_no_level_check :
    (∀ (cmb : Combiner) (actives : List ShamirPublicPoint) (own : ShamirPublicPoint)
        (share skOut : PolyC) (e : TSSError) (sk : PolyC),
      cmb.GenAdditiveShareQ actives own share skOut = some (some e, sk) →
        e = .insufficientParties ∧ sk = skOut) ∧
    (∀ (cmb : Combiner) (actives : List ShamirPublicPoint) (own : ShamirPublicPoint)
        (share skOut : PolyQP) (e : TSSError) (sk : PolyQP),
      cmb.GenAdditiveShareQP actives own share skOut = some (some e, sk) →
        e = .insufficientParties ∧ sk = skOut) ∧
    (∀ (thr : Thresholdizer) (s1 s2 out : ShamirSecretShareQP), ¬ aggLevelsOk s1 s2 out →
      thr.AggregateShares s1 s2 out = (some .levelMismatch, out)) := by
  refine ⟨?_, ?_, fun thr s1 s2 out h => AggregateShares_mismatch thr s1 s2 out h⟩
  · intro cmb actives own share skOut e sk h
    unfold Combiner.GenAdditiveShareQ at h
    by_cases hlt : actives.length < cmb.threshold
    · rw [if_pos hlt] at h
      have h' := Option.some.inj h
      exact ⟨(Option.some.inj (congrArg Prod.fst h')).symm, (congrArg Prod.snd h').symm⟩
    · rw [if_neg hlt] at h
      cases hcp : cmb.coeffProd cmb.moduliQ (actives.take cmb.threshold) own with
      | none =>
        rw [hcp] at h
        exact absurd h (by simp)
      | some prod =>
        rw [hcp] at h
        have h' := Option.some.inj h
        exact absurd (congrArg Prod.fst h') (by simp)
  · intro cmb actives own share skOut e sk h
    unfold Combiner.GenAdditiveShareQP at h
    by_cases hlt : actives.length < cmb.threshold
    · rw [if_pos hlt] at h
      have h' := Option.some.inj h
      exact ⟨(Option.some.inj (congrArg Prod.fst h')).symm, (congrArg Prod.snd h').symm⟩
    · rw [if_neg hlt] at h
      cases hcp : cmb.coeffProd cmb.moduli (actives.take cmb.threshold) own with
      | none =>
        rw [hcp] at h
        exact absurd h (by simp)
      | some prod =>
        rw [hcp] at h
        have h' := Option.some.inj h
        exact absurd (congrArg Prod.fst h') (by simp)

/-- C2 witness: the amended statement exercised on a failing combination
(too few actives) and a mismatched aggregation. -/
theorem claim2_witness :
    (TSSError.insufficientParties = TSSError.insufficientParties ∧
      ([[7]] : PolyC) = [[7]]) ∧
    thrA.AggregateShares ⟨⟨[[1], [2]], []⟩⟩ ⟨⟨[[4]], []⟩⟩ ⟨⟨[[9]], []⟩⟩ =
      (some .levelMismatch, ⟨⟨[[9]], []⟩⟩) :=
  ⟨claim2_no_level_check.1 (NewCombiner [5] [] 1 1 [1, 2] 2) [1] 1 [[3]] [[7]]
      .insufficientParties [[7]] (by decide),
   claim2_no_level_check.2.2 thrA ⟨⟨[[1], [2]], []⟩⟩ ⟨⟨[[4]], []⟩⟩ ⟨⟨[[9]], []⟩⟩ (by decide)⟩

/-- C6: NewCombiner precomputes a Lagrange coefficient for exactly the
identities of `others` that differ from `own` (none for `own` itself, none
for absent identities), each computed by per-limb subtraction, per-limb
Montgomery-domain inversion and per-limb Montgomery multiplication, and per
limb equal to the Montgomery form of other·(other − own)⁻¹. -/
theorem claim6_newcombiner (MQ MP : List Nat) (n : Nat) (own : ShamirPublicPoint)
    (others : List ShamirPublicPoint) (t : Nat) :
    ((NewCombiner MQ MP n own others t).coeffOf own = none) ∧
    (∀ a, a ∉ others → (NewCombiner MQ MP n own others t).coeffOf a = none) ∧
    (∀ a, a ∈ others → a ≠ own →
      (NewCombiner MQ MP n own others t).coeffOf a =
        some (mulRNSScalarC (MQ ++ MP)
          (inverseC (MQ ++ MP) (subRNSScalarC (MQ ++ MP) (newRNSScalarC (MQ ++ MP) a)
            (newRNSScalarC (MQ ++ MP) own)))
          (newRNSScalarC (MQ ++ MP) a)) ∧
      ∀ i, ∀ _ : i < (MQ ++ MP).length, ∀ _ : Fact (Nat.Prime ((MQ ++ MP).getD i 1)),
        (MQ ++ MP).getD i 1 % 2 = 1 →
        (((lagrangeCoeffC (MQ ++ MP) own a).getD i 0 : Nat) : ZMod ((MQ ++ MP).getD i 1)) =
          ((a : ZMod ((MQ ++ MP).getD i 1)) *
              ((a : ZMod ((MQ ++ MP).getD i 1)) - (own : Nat))⁻¹) *
            ((R64 : Nat) : ZMod ((MQ ++ MP).getD i 1))) := by
  refine ⟨?_, ?_, ?_⟩
  · rw [coeffOf_NewCombiner]
    rw [if_neg]
    intro h
    exact h.2 rfl
  · intro a ha
    rw [coeffOf_NewCombiner, if_neg]
    intro h
    exact ha h.1
  · intro a hmem hne
    refine ⟨?_, ?_⟩
    · rw [coeffOf_NewCombiner, if_pos ⟨hmem, hne⟩]
      rfl
    · intro i hi hF hodd
      exact lagrangeCoeffC_entry (MQ ++ MP) own a hi hodd

/-- C6 witness: the combiner over `[5]` with own identity 1 and others
`[1, 2]` holds no coefficient for 1, none for the absent 3, and for 2 the
coefficient is the Montgomery form of 2·(2 − 1)⁻¹. -/
theorem claim6_witness :
    ((NewCombiner [5] [] 1 1 [1, 2] 2).coeffOf 1 = none) ∧
    ((NewCombiner [5] [] 1 1 [1, 2] 2).coeffOf 3 = none) ∧
    (((lagrangeCoeffC ([5] ++ []) 1 2).getD 0 0 : Nat) : ZMod (([5] ++ [] : List Nat).getD 0 1)) =
      ((2 : ZMod (([5] ++ [] : List Nat).getD 0 1)) *
          ((2 : ZMod (([5] ++ [] : List Nat).getD 0 1)) - ((1 : Nat) : Nat))⁻¹) *
        ((R64 : Nat) : ZMod (([5] ++ [] : List Nat).getD 0 1)) := by
  have h := claim6_newcombiner [5] [] 1 1 [1, 2] 2
  refine ⟨h.1, h.2.1 3 (by decide), ?_⟩
  have h2 := (h.2.2 2 (by decide) (by decide)).2 0 (by decide) ⟨by norm_num⟩ (by decide)
  exact_mod_cast h2

/-- C7: the combination operations use exactly the first `threshold` entries
of the actives list in caller order — later entries (and, outside the error
branch, the output argument) never influence the result — and the result is
the own share Montgomery-multiplied by the product, started at the
Montgomery one, of the precomputed coefficients of the windowed identities
other than the own one. -/
theorem claim7_window :
    (∀ (cmb : Combiner) (l1 l2 : List ShamirPublicPoint) (own : ShamirPublicPoint)
        (share sk sk' : PolyC),
      cmb.threshold ≤ l1.length → cmb.threshold ≤ l2.length →
      l1.take cmb.threshold = l2.take cmb.threshold →
      cmb.GenAdditiveShareQ l1 own share sk = cmb.GenAdditiveShareQ l2 own share sk') ∧
    (∀ (cmb : Combiner) (l1 l2 : List ShamirPublicPoint) (own : ShamirPublicPoint)
        (share sk sk' : PolyQP),
      cmb.threshold ≤ l1.length → cmb.threshold ≤ l2.length →
      l1.take cmb.threshold = l2.take cmb.threshold →
      cmb.GenAdditiveShareQP l1 own share sk = cmb.GenAdditiveShareQP l2 own share sk') ∧
    (∀ (MQ MP : List Nat) (nn : Nat) (own : ShamirPublicPoint)
        (others actives : List ShamirPublicPoint) (t : Nat) (ownShare skOut : PolyC),
      t ≤ actives.length → (∀ a ∈ actives.take t, a ≠ own → a ∈ others) →
      ∃ v, (NewCombiner MQ MP nn own others t).GenAdditiveShareQ actives own ownShare skOut =
          some (none, v) ∧
        v.length = MQ.length ∧
        ∀ i, ∀ _ : i < MQ.length, ∀ _ : Fact (Nat.Prime (MQ.getD i 1)), MQ.getD i 1 % 2 = 1 →
          ∀ k, k < nn →
          ((entryC v i k : Nat) : ZMod (MQ.getD i 1)) =
            (entryC ownShare i k : ZMod (MQ.getD i 1)) *
              (((actives.take t).filter fun b => b != own).map fun (b : Nat) =>
                (b : ZMod (MQ.getD i 1)) * ((b : ZMod (MQ.getD i 1)) - (own : Nat))⁻¹).prod) ∧
    (∀ (MQ MP : List Nat) (nn : Nat) (own : ShamirPublicPoint)
        (others actives : List ShamirPublicPoint) (t : Nat) (ownShare skOut : PolyQP),
      t ≤ actives.length → (∀ a ∈ actives.take t, a ≠ own → a ∈ others) →
      ownShare.valQ.length = MQ.length →
      ∃ v, (NewCombiner MQ MP nn own others t).GenAdditiveShareQP actives own ownShare skOut =
          some (none, v) ∧
        v.valQ.length = MQ.length ∧ v.valP.length = MP.length ∧
        ∀ i, ∀ _ : i < (MQ ++ MP).length, ∀ _ : Fact (Nat.Prime ((MQ ++ MP).getD i 1)),
          (MQ ++ MP).getD i 1 % 2 = 1 → ∀ k, k < nn →
          ((entryQP v i k : Nat) : ZMod ((MQ ++ MP).getD i 1)) =
            (entryQP ownShare i k : ZMod ((MQ ++ MP).getD i 1)) *
              (((actives.take t).filter fun b => b != own).map fun (b : Nat) =>
                (b : ZMod ((MQ ++ MP).getD i 1)) *
                  ((b : ZMod ((MQ ++ MP).getD i 1)) - (own : Nat))⁻¹).prod) := by
  refine ⟨?_, ?_, ?_, ?_⟩
  · intro cmb l1 l2 own share sk sk' h1 h2 htake
    unfold Combiner.GenAdditiveShareQ
    rw [if_neg (by omega), if_neg (by omega), htake]
  · intro cmb l1 l2 own share sk sk' h1 h2 htake
    unfold Combiner.GenAdditiveShareQP
    rw [if_neg (by omega), if_neg (by omega), htake]
  · intro MQ MP nn own others actives t ownShare skOut hlen hlk
    exact GenAdditiveShareQ_sem MQ MP nn own others actives t ownShare skOut hlen hlk
  · intro MQ MP nn own others actives t ownShare skOut hlen hlk hshape
    exact GenAdditiveShareQP_sem MQ MP nn own others actives t ownShare skOut hlen hlk hshape

/-- C7 witness: the window behavior on a threshold-1 combiner (the second
active identity and the output argument do not matter), and the semantic
form of a threshold-2 combination. -/
theorem claim7_witness :
    ((NewCombiner [5] [] 1 1 [1, 2] 1).GenAdditiveShareQ [1, 2] 1 [[3]] [[0]] =
      (NewCombiner [5] [] 1 1 [1, 2] 1).GenAdditiveShareQ [1, 9] 1 [[3]] [[8]]) ∧
    ∃ v, (NewCombiner [5] [] 1 1 [1, 2] 2).GenAdditiveShareQP [1, 2] 1 ⟨[[3]], []⟩ ⟨[[0]], []⟩ =
        some (none, v) ∧
      v.valQ.length = ([5] : List Nat).length ∧ v.valP.length = ([] : List Nat).length ∧
      ∀ i, ∀ _ : i < (([5] : List Nat) ++ []).length,
        ∀ _ : Fact (Nat.Prime ((([5] : List Nat) ++ []).getD i 1)),
        (([5] : List Nat) ++ []).getD i 1 % 2 = 1 → ∀ k, k < 1 →
        ((entryQP v i k : Nat) : ZMod ((([5] : List Nat) ++ []).getD i 1)) =
          (entryQP ⟨[[3]], []⟩ i k : ZMod ((([5] : List Nat) ++ []).getD i 1)) *
            ((([1, 2].take 2).filter fun b => b != 1).map fun (b : Nat) =>
              (b : ZMod ((([5] : List Nat) ++ []).getD i 1)) *
                ((b : ZMod ((([5] : List Nat) ++ []).getD i 1)) -
                  ((1 : Nat) : ZMod ((([5] : List Nat) ++ []).getD i 1)))⁻¹).prod :=
  ⟨claim7_window.1 (NewCombiner [5] [] 1 1 [1, 2] 1) [1, 2] [1, 9] 1 [[3]] [[0]] [[8]]
      (by decide) (by decide) (by decide),
   claim7_window.2.2.2 [5] [] 1 1 [1, 2] [1, 2] 2 ⟨[[3]], []⟩ ⟨[[0]], []⟩ (by decide)
     (by decide) (by decide)⟩

theorem coeffProd_foldl_none (cmb : Combiner) (M : List Nat) (own : ShamirPublicPoint) :
    ∀ pts : List ShamirPublicPoint,
      pts.foldl (fun acc a => if a = own then acc
        else acc.bind fun p => (cmb.coeffOf a).map fun c => mulRNSScalarC M p c) none = none
  | [] => rfl
  | a :: pts => by
    rw [List.foldl_cons]
    have hstep : (if a = own then (none : Option RNSScalar)
        else Option.bind none fun p => (cmb.coeffOf a).map fun c => mulRNSScalarC M p c) =
        none := by
      by_cases h : a = own
      · rw [if_pos h]
      · rw [if_neg h]
        rfl
    rw [hstep]
    exact coeffProd_foldl_none cmb M own pts

theorem coeffProd_none_iff (cmb : Combiner) (M : List Nat) (own : ShamirPublicPoint) :
    ∀ (pts : List ShamirPublicPoint) (acc : RNSScalar),
      (pts.foldl (fun acc a => if a = own then acc
          else acc.bind fun p => (cmb.coeffOf a).map fun c => mulRNSScalarC M p c) (some acc)
        = none) ↔ ∃ a ∈ pts, a ≠ own ∧ cmb.coeffOf a = none
  | [], acc => by simp
  | a :: pts, acc => by
    rw [List.foldl_cons]
    by_cases hao : a = own
    · rw [if_pos hao, coeffProd_none_iff cmb M own pts acc]
      constructor
      · rintro ⟨b, hb, hbo, hco⟩
        exact ⟨b, List.mem_cons_of_mem a hb, hbo, hco⟩
      · rintro ⟨b, hb, hbo, hco⟩
        rcases List.mem_cons.mp hb with h | h
        · exact absurd hao (h ▸ hbo)
        · exact ⟨b, h, hbo, hco⟩
    · rw [if_neg hao]
      cases hco : cmb.coeffOf a with
      | none =>
        have hval : ((some acc).bind fun p =>
            Option.map (fun c => mulRNSScalarC M p c) (none : Option RNSScalar)) =
            (none : Option RNSScalar) := rfl
        rw [hval, coeffProd_foldl_none cmb M own pts]
        constructor
        · intro _
          exact ⟨a, List.mem_cons_self a pts, hao, hco⟩
        · intro _
          rfl
      | some c =>
        have hval : ((some acc).bind fun p =>
            Option.map (fun c => mulRNSScalarC M p c) (some c)) =
            some (mulRNSScalarC M acc c) := rfl
        rw [hval, coeffProd_none_iff cmb M own pts (mulRNSScalarC M acc c)]
        constructor
        · rintro ⟨b, hb, hbo, hcob⟩
          exact ⟨b, List.mem_cons_of_mem a hb, hbo, hcob⟩
        · rintro ⟨b, hb, hbo, hcob⟩
          rcases List.mem_cons.mp hb with h | h
          · subst h
            rw [hco] at hcob
            exact absurd hcob (by simp)
          · exact ⟨b, h, hbo, hcob⟩

/-- C10: the combination operations produce a defined result exactly when
every identity among the first `threshold` actives that differs from the own
identity was given to NewCombiner; otherwise the coefficient lookup yields
an absent scalar, the subsequent per-limb multiplication has no defined
result, and no error is reported (the error branch is never taken). -/
theorem claim10_totality (MQ MP : List Nat) (nn : Nat) (own : ShamirPublicPoint)
    (others actives : List ShamirPublicPoint) (t : Nat) :
    (∀ share skOut : PolyC,
      ((NewCombiner MQ MP nn own others t).GenAdditiveShareQ actives own share skOut = none ↔
        t ≤ actives.length ∧ ∃ a ∈ actives.take t, a ≠ own ∧ a ∉ others)) ∧
    (∀ share skOut : PolyQP,
      ((NewCombiner MQ MP nn own others t).GenAdditiveShareQP actives own share skOut = none ↔
        t ≤ actives.length ∧ ∃ a ∈ actives.take t, a ≠ own ∧ a ∉ others)) := by
  have hth : (NewCombiner MQ MP nn own others t).threshold = t := rfl
  have hcoeffnone : ∀ a : ShamirPublicPoint, a ≠ own →
      ((NewCombiner MQ MP nn own others t).coeffOf a = none ↔ a ∉ others) := by
    intro a hao
    rw [coeffOf_NewCombiner]
    by_cases hmem : a ∈ others
    · rw [if_pos ⟨hmem, hao⟩]
      simp [hmem]
    · rw [if_neg fun hc => hmem hc.1]
      simp [hmem]
  have hprodiff : ∀ M : List Nat,
      ((NewCombiner MQ MP nn own others t).coeffProd M (actives.take t) own = none ↔
        ∃ a ∈ actives.take t, a ≠ own ∧ a ∉ others) := by
    intro M
    unfold Combiner.coeffProd
    rw [coeffProd_none_iff]
    constructor
    · rintro ⟨a, ha, hao, hco⟩
      exact ⟨a, ha, hao, (hcoeffnone a hao).mp hco⟩
    · rintro ⟨a, ha, hao, hmem⟩
      exact ⟨a, ha, hao, (hcoeffnone a hao).mpr hmem⟩
  constructor
  · intro share skOut
    unfold Combiner.GenAdditiveShareQ
    by_cases hlt : actives.length < (NewCombiner MQ MP nn own others t).threshold
    · rw [if_pos hlt]
      rw [hth] at hlt
      constructor
      · intro h
        exact absurd h (by simp)
      · rintro ⟨hle, _⟩
        omega
    · rw [if_neg hlt]
      rw [hth] at hlt
      cases hcp : (NewCombiner MQ MP nn own others t).coeffProd
          (NewCombiner MQ MP nn own others t).moduliQ
          (actives.take (NewCombiner MQ MP nn own others t).threshold) own with
      | none =>
        rw [hth] at hcp
        constructor
        · intro _
          exact ⟨by omega, (hprodiff _).mp hcp⟩
        · intro _
          rfl
      | some prod =>
        rw [hth] at hcp
        constructor
        · intro h
          exact absurd h (by simp)
        · rintro ⟨_, hex⟩
          rw [(hprodiff _).mpr hex] at hcp
          exact absurd hcp (by simp)
  · intro share skOut
    unfold Combiner.GenAdditiveShareQP
    by_cases hlt : actives.length < (NewCombiner MQ MP nn own others t).threshold
    · rw [if_pos hlt]
      rw [hth] at hlt
      constructor
      · intro h
        exact absurd h (by simp)
      · rintro ⟨hle, _⟩
        omega
    · rw [if_neg hlt]
      rw [hth] at hlt
      cases hcp : (NewCombiner MQ MP nn own others t).coeffProd
          (NewCombiner MQ MP nn own others t).moduli
          (actives.take (NewCombiner MQ MP nn own others t).threshold) own with
      | none =>
        rw [hth] at hcp
        constructor
        · intro _
          exact ⟨by omega, (hprodiff _).mp hcp⟩
        · intro _
          rfl
      | some prod =>
        rw [hth] at hcp
        constructor
        · intro h
          exact absurd h (by simp)
        · rintro ⟨_, hex⟩
          rw [(hprodiff _).mpr hex] at hcp
          exact absurd hcp (by simp)

/-- C10 witness: identity 3 is active within the window but was not given
to NewCombiner, so both operations return the undefined result (and in
particular report no error). -/
theorem claim10_witness :
    (NewCombiner [5] [] 1 1 [1, 2] 2).GenAdditiveShareQ [1, 3] 1 [[3]] [[0]] = none ∧
    (NewCombiner [5] [] 1 1 [1, 2] 2).GenAdditiveShareQP [1, 3] 1 ⟨[[3]], []⟩ ⟨[[0]], []⟩ =
      none :=
  ⟨((claim10_totality [5] [] 1 1 [1, 2] [1, 3] 2).1 [[3]] [[0]]).mpr (by decide),
   ((claim10_totality [5] [] 1 1 [1, 2] [1, 3] 2).2 ⟨[[3]], []⟩ ⟨[[0]], []⟩).mpr (by decide)⟩

theorem memberShare_valP_length (thr : Thresholdizer) (poly : ShamirPolynomialQP)
    (quorum : List ShamirPublicPoint) (j : Nat) :
    (memberShare thr poly quorum j).valP.length = thr.moduliP.length := by
  simp [memberShare, Thresholdizer.GenShamirSecretShareQP, evalPolyScalarC_length]

theorem Allocate_valQ_length (thr : Thresholdizer) :
    thr.AllocateThresholdSecretShare.poly.valQ.length = thr.moduliQ.length := by
  simp [Thresholdizer.AllocateThresholdSecretShare, newPolyC]

theorem Allocate_valP_length (thr : Thresholdizer) :
    thr.AllocateThresholdSecretShare.poly.valP.length = thr.moduliP.length := by
  simp [Thresholdizer.AllocateThresholdSecretShare, newPolyC]

/-- Semantics of a full-level aggregation: no error, full-level output, and
per limb the entries are the modular sums of the input entries. -/
theorem AggregateShares_sem_full (thr : Thresholdizer) (s1 s2 out : ShamirSecretShareQP)
    (h1Q : s1.poly.valQ.length = thr.moduliQ.length)
    (h2Q : s2.poly.valQ.length = thr.moduliQ.length)
    (hoQ : out.poly.valQ.length = thr.moduliQ.length)
    (h1P : s1.poly.valP.length = thr.moduliP.length)
    (h2P : s2.poly.valP.length = thr.moduliP.length)
    (hoP : out.poly.valP.length = thr.moduliP.length) :
    (thr.AggregateShares s1 s2 out).1 = none ∧
    (thr.AggregateShares s1 s2 out).2.poly.valQ.length = thr.moduliQ.length ∧
    (thr.AggregateShares s1 s2 out).2.poly.valP.length = thr.moduliP.length ∧
    ∀ i, ∀ _ : i < (thr.moduliQ ++ thr.moduliP).length, ∀ k, k < thr.n →
      ((entryQP (thr.AggregateShares s1 s2 out).2.poly i k : Nat) :
          ZMod ((thr.moduliQ ++ thr.moduliP).getD i 1)) =
        (entryQP s1.poly i k : ZMod ((thr.moduliQ ++ thr.moduliP).getD i 1)) +
          (entryQP s2.poly i k : ZMod ((thr.moduliQ ++ thr.moduliP).getD i 1)) := by
  have hlv : aggLevelsOk s1 s2 out := by
    unfold aggLevelsOk PolyQP.levelQ PolyQP.levelP
    rw [h1Q, h2Q, hoQ, h1P, h2P, hoP]
    exact ⟨rfl, rfl, rfl, rfl⟩
  rw [AggregateShares_match thr s1 s2 out hlv, h1Q, h1P, List.take_length, List.take_length]
  refine ⟨rfl, addPolyC_length _ _ _ _, addPolyC_length _ _ _ _, ?_⟩
  intro i hi k hk
  by_cases hiQ : i < thr.moduliQ.length
  · have hQeq : (thr.moduliQ ++ thr.moduliP).getD i 1 = thr.moduliQ.getD i 1 :=
      getD_MQ_append hiQ
    have hv : entryQP (⟨⟨addPolyC thr.moduliQ thr.n s1.poly.valQ s2.poly.valQ,
        addPolyC thr.moduliP thr.n s1.poly.valP s2.poly.valP⟩⟩ : ShamirSecretShareQP).poly i k =
        entryC (addPolyC thr.moduliQ thr.n s1.poly.valQ s2.poly.valQ) i k := by
      unfold entryQP
      exact entryC_append_left k (by rw [addPolyC_length]; exact hiQ)
    have hs1 : entryQP s1.poly i k = entryC s1.poly.valQ i k := by
      unfold entryQP
      exact entryC_append_left k (by rw [h1Q]; exact hiQ)
    have hs2 : entryQP s2.poly i k = entryC s2.poly.valQ i k := by
      unfold entryQP
      exact entryC_append_left k (by rw [h2Q]; exact hiQ)
    rw [hv, hs1, hs2, addPolyC_entry _ _ _ _ hiQ hk, hQeq, cast_addMod_gen]
  · have hiQ' : thr.moduliQ.length ≤ i := Nat.le_of_not_lt hiQ
    have hiP : i - thr.moduliQ.length < thr.moduliP.length := by
      rw [List.length_append] at hi
      omega
    have hPeq : (thr.moduliQ ++ thr.moduliP).getD i 1 =
        thr.moduliP.getD (i - thr.moduliQ.length) 1 := getD_MP_append hiQ'
    have hv : entryQP (⟨⟨addPolyC thr.moduliQ thr.n s1.poly.valQ s2.poly.valQ,
        addPolyC thr.moduliP thr.n s1.poly.valP s2.poly.valP⟩⟩ : ShamirSecretShareQP).poly i k =
        entryC (addPolyC thr.moduliP thr.n s1.poly.valP s2.poly.valP)
          (i - thr.moduliQ.length) k := by
      unfold entryQP
      rw [entryC_append_right k (by rw [addPolyC_length]; exact hiQ'), addPolyC_length]
    have hs1 : entryQP s1.poly i k = entryC s1.poly.valP (i - thr.moduliQ.length) k := by
      unfold entryQP
      rw [entryC_append_right k (by rw [h1Q]; exact hiQ'), h1Q]
    have hs2 : entryQP s2.poly i k = entryC s2.poly.valP (i - thr.moduliQ.length) k := by
      unfold entryQP
      rw [entryC_append_right k (by rw [h2Q]; exact hiQ'), h2Q]
    rw [hv, hs1, hs2, addPolyC_entry _ _ _ _ hiP hk, hPeq, cast_addMod_gen]

/-- Quorum member `j`'s aggregated share of two independent dealings: the
sum, via `AggregateShares`, of the two shares evaluated at the member's own
point, into a freshly allocated output share. -/
def memberAggShare (thr : Thresholdizer) (poly1 poly2 : ShamirPolynomialQP)
    (quorum : List ShamirPublicPoint) (j : Nat) : PolyQP :=
  (thr.AggregateShares ⟨memberShare thr poly1 quorum j⟩ ⟨memberShare thr poly2 quorum j⟩
    thr.AllocateThresholdSecretShare).2.poly

/-- C8, amended: aggregation linearity over a quorum of identities pairwise
distinct modulo every modulus of the chain: aggregating the two recipients'
shares at each member and reconstructing yields additive shares that sum to
s1 + s2 modulo the active chain; the aggregation itself reports no error. -/
theorem claim8_linearity (thr : Thresholdizer) (t ctr1 ctr2 : Nat) (ht : 1 ≤ t)
    (secret1 secret2 : PolyQP) (skOut : PolyQP)
    (hsec1Q : secret1.valQ.length = thr.moduliQ.length)
    (hsec2Q : secret2.valQ.length = thr.moduliQ.length)
    (quorum : List ShamirPublicPoint) (hqlen : quorum.length = t) (hnd : quorum.Nodup)
    (hprime : ∀ q ∈ thr.moduliQ ++ thr.moduliP, Nat.Prime q ∧ q % 2 = 1)
    (hdist : ∀ q ∈ thr.moduliQ ++ thr.moduliP, ∀ x ∈ quorum, ∀ y ∈ quorum, x ≠ y →
      x % q ≠ y % q)
    (poly1 poly2 : ShamirPolynomialQP)
    (hpoly1 : (thr.GenShamirPolynomialQP t secret1 ctr1).1 = Except.ok poly1)
    (hpoly2 : (thr.GenShamirPolynomialQP t secret2 ctr2).1 = Except.ok poly2) :
    (∀ j, j < t →
      (thr.AggregateShares ⟨memberShare thr poly1 quorum j⟩ ⟨memberShare thr poly2 quorum j⟩
        thr.AllocateThresholdSecretShare).1 = none) ∧
    (∀ j, j < t →
      memberAdditive thr quorum t j (memberAggShare thr poly1 poly2 quorum j) skOut =
        some (none,
          okOutQP (memberAdditive thr quorum t j (memberAggShare thr poly1 poly2 quorum j)
            skOut))) ∧
    ∀ i, i < (thr.moduliQ ++ thr.moduliP).length → ∀ k, k < thr.n →
      ((∑ j ∈ Finset.range t,
          entryQP (okOutQP (memberAdditive thr quorum t j
            (memberAggShare thr poly1 poly2 quorum j) skOut)) i k : Nat) :
        ZMod ((thr.moduliQ ++ thr.moduliP).getD i 1)) =
          (entryQP secret1 i k : ZMod ((thr.moduliQ ++ thr.moduliP).getD i 1)) +
            entryQP secret2 i k := by
  have hagg := fun j => AggregateShares_sem_full thr ⟨memberShare thr poly1 quorum j⟩
    ⟨memberShare thr poly2 quorum j⟩ thr.AllocateThresholdSecretShare
    (memberShare_valQ_length thr poly1 quorum j) (memberShare_valQ_length thr poly2 quorum j)
    (Allocate_valQ_length thr)
    (memberShare_valP_length thr poly1 quorum j) (memberShare_valP_length thr poly2 quorum j)
    (Allocate_valP_length thr)
  have hpoly1' := GenShamirPolynomialQP_ok thr t ctr1 ht secret1 poly1 hpoly1
  have hpoly2' := GenShamirPolynomialQP_ok thr t ctr2 ht secret2 poly2 hpoly2
  have hlenVal1 : poly1.Value.length = t := by
    rw [hpoly1']
    simp only [List.length_cons, List.length_map, List.length_range]
    omega
  have hlenVal2 : poly2.Value.length = t := by
    rw [hpoly2']
    simp only [List.length_cons, List.length_map, List.length_range]
    omega
  have hshapes1 : ∀ p ∈ poly1.Value, p.valQ.length = thr.moduliQ.length := by
    rw [hpoly1']
    intro p hp
    rcases List.mem_cons.mp hp with h | h
    · rw [h]
      exact hsec1Q
    · obtain ⟨m, _, hpm⟩ := List.mem_map.mp h
      rw [← hpm]
      exact sampleQP_valQ_length thr _
  have hshapes2 : ∀ p ∈ poly2.Value, p.valQ.length = thr.moduliQ.length := by
    rw [hpoly2']
    intro p hp
    rcases List.mem_cons.mp hp with h | h
    · rw [h]
      exact hsec2Q
    · obtain ⟨m, _, hpm⟩ := List.mem_map.mp h
      rw [← hpm]
      exact sampleQP_valQ_length thr _
  have hc01 : poly1.Value.getD 0 ⟨[], []⟩ = secret1 := by
    rw [hpoly1']
    rfl
  have hc02 : poly2.Value.getD 0 ⟨[], []⟩ = secret2 := by
    rw [hpoly2']
    rfl
  obtain ⟨hsucc, hsum⟩ := quorum_combine_sum thr t ht quorum hqlen hnd skOut
    (memberAggShare thr poly1 poly2 quorum) (fun j hj => (hagg j).2.1)
  refine ⟨fun j _ => (hagg j).1, hsucc, ?_⟩
  intro i hi k hk
  have hqmem : (thr.moduliQ ++ thr.moduliP).getD i 1 ∈ thr.moduliQ ++ thr.moduliP :=
    getD_mem_of_lt hi 1
  obtain ⟨hqprime, hqodd⟩ := hprime _ hqmem
  have hF : Fact (Nat.Prime ((thr.moduliQ ++ thr.moduliP).getD i 1)) := ⟨hqprime⟩
  have hc : ∀ j, j < t →
      ((entryQP (memberAggShare thr poly1 poly2 quorum j) i k : Nat) :
          ZMod ((thr.moduliQ ++ thr.moduliP).getD i 1)) =
        ∑ m ∈ Finset.range t,
          (((entryQP (poly1.Value.getD m ⟨[], []⟩) i k : Nat) :
              ZMod ((thr.moduliQ ++ thr.moduliP).getD i 1)) +
            ((entryQP (poly2.Value.getD m ⟨[], []⟩) i k : Nat) :
              ZMod ((thr.moduliQ ++ thr.moduliP).getD i 1))) *
            ((quorum.getD j 0 : Nat) : ZMod ((thr.moduliQ ++ thr.moduliP).getD i 1)) ^ m := by
    intro j hj
    have hentry := (hagg j).2.2.2 i hi k hk
    have hsh1 := GenShamirSecretShareQP_entry_cast thr (quorum.getD j 0) poly1 hi hk rfl hshapes1
    have hsh2 := GenShamirSecretShareQP_entry_cast thr (quorum.getD j 0) poly2 hi hk rfl hshapes2
    rw [hlenVal1] at hsh1
    rw [hlenVal2] at hsh2
    unfold memberAggShare
    rw [hentry]
    show ((entryQP (memberShare thr poly1 quorum j) i k : Nat) :
        ZMod ((thr.moduliQ ++ thr.moduliP).getD i 1)) + _ = _
    unfold memberShare
    rw [hsh1, hsh2, ← Finset.sum_add_distrib]
    refine Finset.sum_congr rfl fun m _ => ?_
    ring
  have := hsum i hi hF hqodd (hdist _ hqmem) k hk
    (fun m => ((entryQP (poly1.Value.getD m ⟨[], []⟩) i k : Nat) :
        ZMod ((thr.moduliQ ++ thr.moduliP).getD i 1)) +
      ((entryQP (poly2.Value.getD m ⟨[], []⟩) i k : Nat) :
        ZMod ((thr.moduliQ ++ thr.moduliP).getD i 1))) hc
  rw [this]
  show ((entryQP (poly1.Value.getD 0 ⟨[], []⟩) i k : Nat) :
      ZMod ((thr.moduliQ ++ thr.moduliP).getD i 1)) +
    ((entryQP (poly2.Value.getD 0 ⟨[], []⟩) i k : Nat) :
      ZMod ((thr.moduliQ ++ thr.moduliP).getD i 1)) = _
  rw [hc01, hc02]

/-- C8 counterexample: two independent sharings of the secret 1 over the
chain `[5]`, aggregated at the distinct identities 1 and 6 (congruent
modulo 5): the additive shares sum to 0 modulo 5 instead of 1 + 1 = 2. -/
theorem claim8_counterexample :
    (1 ≤ 2 ∧ ([1, 6] : List ShamirPublicPoint).Nodup ∧
      (∀ q ∈ thrA.moduliQ ++ thrA.moduliP, Nat.Prime q ∧ q % 2 = 1) ∧
      (thrA.GenShamirPolynomialQP 2 ⟨[[1]], []⟩ 0).1 = Except.ok polyA) ∧
    (∑ j ∈ Finset.range 2, entryQP (okOutQP (memberAdditive thrA [1, 6] 2 j
        (memberAggShare thrA polyA polyA [1, 6] j) ⟨[[0]], []⟩)) 0 0) % 5 = 0 ∧
    (entryQP (⟨[[1]], []⟩ : PolyQP) 0 0 + entryQP (⟨[[1]], []⟩ : PolyQP) 0 0) % 5 = 2 := by
  refine ⟨⟨by omega, by decide, by decide, rfl⟩, by decide, by decide⟩

/-- C8 witness: the amended linearity theorem at the chain `[5]`, threshold
2, quorum `[1, 2]` and the secrets 3 and 1 (3 + 1 is 4 modulo 5). -/
theorem claim8_witness :
    ((∑ j ∈ Finset.range 2, entryQP (okOutQP (memberAdditive thrA [1, 2] 2 j
        (memberAggShare thrA polyB polyA [1, 2] j) ⟨[[0]], []⟩)) 0 0 : Nat) :
      ZMod ((thrA.moduliQ ++ thrA.moduliP).getD 0 1)) =
        (entryQP (⟨[[3]], []⟩ : PolyQP) 0 0 :
            ZMod ((thrA.moduliQ ++ thrA.moduliP).getD 0 1)) +
          entryQP (⟨[[1]], []⟩ : PolyQP) 0 0 :=
  (claim8_linearity thrA 2 0 0 (by omega) ⟨[[3]], []⟩ ⟨[[1]], []⟩ ⟨[[0]], []⟩ (by decide)
    (by decide) [1, 2] (by decide) (by decide) (by decide) (by decide) polyB polyA
    (by rfl) (by rfl)).2.2 0 (by decide) 0 (by decide)

/-! ## Serialization lemmas -/

theorem sum_digits_mod (b : Nat) : ∀ (K n : Nat),
    ∑ i ∈ Finset.range K, n / b ^ i % b * b ^ i = n % b ^ K
  | 0, n => by simp [Nat.mod_one]
  | K + 1, n => by
    rw [Finset.sum_range_succ, sum_digits_mod b K n, Nat.mod_pow_succ, Nat.mul_comm (b ^ K)]

theorem word64Bytes_length (v : Nat) : (word64Bytes v).length = 8 := by
  simp [word64Bytes]

theorem wordOfBytes_word64Bytes {v : Nat} (hv : v < 2 ^ 64) :
    wordOfBytes (word64Bytes v) = v := by
  unfold wordOfBytes word64Bytes
  have hget : ∀ i, i < 8 → ((List.range 8).map fun i => v / 256 ^ i % 256).getD i 0 =
      v / 256 ^ i % 256 := fun i hi => getD_rangeMap 8 _ 0 hi
  rw [Finset.sum_congr rfl fun i hi => by
    rw [hget i (Finset.mem_range.mp hi)]]
  rw [sum_digits_mod 256 8 v]
  apply Nat.mod_eq_of_lt
  calc v < 2 ^ 64 := hv
    _ = 256 ^ 8 := by norm_num

theorem encodeRow_cons (v : Nat) (r : List Nat) :
    encodeRow (v :: r) = word64Bytes v ++ encodeRow r := rfl

theorem encodeRow_length : ∀ r : List Nat, (encodeRow r).length = 8 * r.length
  | [] => rfl
  | v :: r => by
    rw [encodeRow_cons, List.length_append, word64Bytes_length, encodeRow_length r,
      List.length_cons]
    omega

theorem encodePolyC_cons (r : List Nat) (p : PolyC) :
    encodePolyC (r :: p) = encodeRow r ++ encodePolyC p := rfl

theorem encodePolyC_length : ∀ p : PolyC, (encodePolyC p).length = binarySizePolyC p
  | [] => rfl
  | r :: p => by
    rw [encodePolyC_cons, List.length_append, encodeRow_length, encodePolyC_length p]
    rfl

theorem binarySizePolyC_wf (n : Nat) : ∀ p : PolyC, (∀ r ∈ p, r.length = n) →
    binarySizePolyC p = 8 * n * p.length
  | [], _ => rfl
  | r :: p, hw => by
    unfold binarySizePolyC
    rw [List.map_cons, List.sum_cons]
    have := binarySizePolyC_wf n p fun rr hrr => hw rr (List.mem_cons_of_mem r hrr)
    unfold binarySizePolyC at this
    rw [this, hw r (List.mem_cons_self r p), List.length_cons]
    ring

theorem decodeRow_encode : ∀ (r rest : List Nat), (∀ v ∈ r, v < 2 ^ 64) →
    decodeRow r.length (encodeRow r ++ rest) = r
  | [], rest, _ => rfl
  | v :: r, rest, hb => by
    rw [List.length_cons, encodeRow_cons, List.append_assoc]
    unfold decodeRow
    rw [List.take_left' (word64Bytes_length v), List.drop_left' (word64Bytes_length v),
      wordOfBytes_word64Bytes (hb v (List.mem_cons_self v r)),
      decodeRow_encode r rest fun w hw => hb w (List.mem_cons_of_mem v hw)]

theorem decodeRows_encode (n : Nat) : ∀ (p : PolyC) (rest : List Nat),
    (∀ r ∈ p, r.length = n) → (∀ r ∈ p, ∀ v ∈ r, v < 2 ^ 64) →
    decodeRows p.length n (encodePolyC p ++ rest) = p
  | [], rest, _, _ => rfl
  | r :: p, rest, hw, hb => by
    rw [List.length_cons, encodePolyC_cons, List.append_assoc]
    unfold decodeRows
    have hrl : (encodeRow r).length = 8 * n := by
      rw [encodeRow_length, hw r (List.mem_cons_self r p)]
    rw [List.take_left' hrl, List.drop_left' hrl,
      decodeRows_encode n p rest (fun rr hrr => hw rr (List.mem_cons_of_mem r hrr))
        (fun rr hrr => hb rr (List.mem_cons_of_mem r hrr))]
    have hr : decodeRow n (encodeRow r) = r := by
      have := decodeRow_encode r [] (hb r (List.mem_cons_self r p))
      rw [List.append_nil] at this
      rw [← hw r (List.mem_cons_self r p)]
      exact this
    rw [hr]

theorem encodePolyQP_length (p : PolyQP) (n : Nat)
    (hwQ : ∀ r ∈ p.valQ, r.length = n) (hwP : ∀ r ∈ p.valP, r.length = n) :
    (encodePolyQP p).length = 8 * n * (p.valQ.length + p.valP.length) := by
  unfold encodePolyQP
  rw [List.length_append, encodePolyC_length, encodePolyC_length,
    binarySizePolyC_wf n p.valQ hwQ, binarySizePolyC_wf n p.valP hwP]
  ring

theorem unmarshal_marshal (p : PolyQP) (n : Nat)
    (hwQ : ∀ r ∈ p.valQ, r.length = n) (hwP : ∀ r ∈ p.valP, r.length = n)
    (hbQ : ∀ r ∈ p.valQ, ∀ v ∈ r, v < 2 ^ 64) (hbP : ∀ r ∈ p.valP, ∀ v ∈ r, v < 2 ^ 64) :
    unmarshalPolyQP p.valQ.length p.valP.length n (encodePolyQP p) = .ok p := by
  unfold unmarshalPolyQP
  rw [if_pos (encodePolyQP_length p n hwQ hwP)]
  unfold encodePolyQP
  have hQlen : (encodePolyC p.valQ).length = 8 * n * p.valQ.length := by
    rw [encodePolyC_length, binarySizePolyC_wf n p.valQ hwQ]
  have hdrop : (encodePolyC p.valQ ++ encodePolyC p.valP).drop (8 * n * p.valQ.length) =
      encodePolyC p.valP := List.drop_left' hQlen
  rw [hdrop, decodeRows_encode n p.valQ (encodePolyC p.valP) hwQ hbQ]
  have hP : decodeRows p.valP.length n (encodePolyC p.valP) = p.valP := by
    have := decodeRows_encode n p.valP [] hwP hbP
    rw [List.append_nil] at this
    exact this
  rw [hP]

/-- C9: a share's serialized size is exactly its ring element's size, the
serialized stream is exactly the element encoding (no additional header) and
has exactly BinarySize bytes, unmarshal of marshal restores an equal share,
and deserialization rejects any input whose length does not match the
expected element encoding for the declared shape. -/
theorem claim9_serialization :
    (∀ s : ShamirSecretShareQP, s.BinarySize = binarySizePolyQP s.poly) ∧
    (∀ s : ShamirSecretShareQP,
      s.WriteTo.length = s.BinarySize ∧ s.WriteTo = encodePolyQP s.poly ∧
      s.MarshalBinary = encodePolyQP s.poly) ∧
    (∀ (s : ShamirSecretShareQP) (n : Nat),
      (∀ r ∈ s.poly.valQ, r.length = n) → (∀ r ∈ s.poly.valP, r.length = n) →
      (∀ r ∈ s.poly.valQ, ∀ v ∈ r, v < 2 ^ 64) → (∀ r ∈ s.poly.valP, ∀ v ∈ r, v < 2 ^ 64) →
      ShamirSecretShareQP.UnmarshalBinary s.poly.valQ.length s.poly.valP.length n
        s.MarshalBinary = .ok s) ∧
    (∀ (rowsQ rowsP n : Nat) (bytes : List Nat), bytes.length ≠ 8 * n * (rowsQ + rowsP) →
      ShamirSecretShareQP.UnmarshalBinary rowsQ rowsP n bytes = .error .invalidEncoding) := by
  refine ⟨fun s => rfl, ?_, ?_, ?_⟩
  · intro s
    refine ⟨?_, rfl, rfl⟩
    unfold ShamirSecretShareQP.WriteTo ShamirSecretShareQP.BinarySize encodePolyQP
      binarySizePolyQP
    rw [List.length_append, encodePolyC_length, encodePolyC_length]
  · intro s n hwQ hwP hbQ hbP
    unfold ShamirSecretShareQP.UnmarshalBinary ShamirSecretShareQP.MarshalBinary
    rw [unmarshal_marshal s.poly n hwQ hwP hbQ hbP]
    rfl
  · intro rowsQ rowsP n bytes h
    unfold ShamirSecretShareQP.UnmarshalBinary unmarshalPolyQP
    rw [if_neg h]
    rfl

/-- C9 witness: a concrete share round-trips through marshal/unmarshal, and
a one-byte input is rejected for a shape that demands eight bytes. -/
theorem claim9_witness :
    ShamirSecretShareQP.UnmarshalBinary
      (⟨⟨[[3]], []⟩⟩ : ShamirSecretShareQP).poly.valQ.length
      (⟨⟨[[3]], []⟩⟩ : ShamirSecretShareQP).poly.valP.length 1
      (⟨⟨[[3]], []⟩⟩ : ShamirSecretShareQP).MarshalBinary = .ok ⟨⟨[[3]], []⟩⟩ ∧
    ShamirSecretShareQP.UnmarshalBinary 1 0 1 [0] = .error .invalidEncoding :=
  ⟨claim9_serialization.2.2.1 ⟨⟨[[3]], []⟩⟩ 1 (by decide) (by decide) (by decide) (by decide),
   claim9_serialization.2.2.2 1 0 1 [0] (by decide)⟩

end Lattigo
